import Mathlib

/-!
Verification development for the GitHub-Actions matrix generator
(`nix/packages/github-matrix/github_matrix.py`).

The Python program is shallowly embedded: pure functions become Lean
functions, the mutable `drv_paths` set becomes explicit state passing,
Python exceptions (`graphlib.CycleError`, `ValueError`, `IndexError`)
become an `Except` error type, and Python string operations are modelled
on the underlying character list (`String.data`).  `json.loads` is an
external collaborator: a stdout line is modelled by its decoding outcome
(blank, malformed JSON, or a decoded record).
-/

namespace GhMatrix

/-! ## Models of the Python string primitives -/

/-- Model of Python `str.strip()`: remove leading and trailing whitespace. -/
def pyStrip (s : String) : String :=
  ⟨((s.data.dropWhile Char.isWhitespace).reverse.dropWhile Char.isWhitespace).reverse⟩

/-- Model of Python `str.startswith(t)`. -/
def pyStartsWith (s t : String) : Bool :=
  t.data.isPrefixOf s.data

/-- Model of the Python slice `s[n:]`. -/
def pySliceFrom (s : String) (n : Nat) : String :=
  ⟨s.data.drop n⟩

/-- Model of Python `s.split(c)` for a single-character separator `c`
(all fields kept, including empty ones). -/
def pySplit (s : String) (c : Char) : List String :=
  (s.data.splitOn c).map (fun l => ⟨l⟩)

/-- Model of Python `sep.join(ls)`. -/
def pyJoin (sep : String) (ls : List String) : String :=
  String.intercalate sep ls

/-- Model of Python `s.replace("-", "_")` (single-character pattern). -/
def pyUnderscore (s : String) : String :=
  ⟨s.data.map (fun c => if c == '-' then '_' else c)⟩

/-- Model of Python `s.replace("\n", "%0A")`. -/
def pyEscapeNewlines (s : String) : String :=
  ⟨s.data.flatMap (fun c => if c == '\n' then "%0A".data else [c])⟩

/-- Index of the last element of `l` satisfying `p`, if any.  Models the
Python loop `for i in range(len(lines) - 1, -1, -1): if p(lines[i]): break`. -/
def findLastIdx {α : Type} (p : α → Bool) : List α → Option Nat
  | [] => none
  | a :: as =>
    match findLastIdx p as with
    | some k => some (k + 1)
    | none => if p a then some 0 else none

/-! ## Data model -/

/-- The Python exceptions the embedded code can raise:
`graphlib.CycleError`, `ValueError` (missing runner configuration) and
`IndexError` (negative indexing out of range). -/
inductive PyExn where
  | cycleError
  | valueError
  | indexError
deriving Repr, DecidableEq

/-- One decoded record of `nix-eval-jobs` stdout (`NixEvalJobsOutput` in the
source).  `error` is the optional `error` field; for records carrying an
`error` field the remaining fields are never inspected by the program. -/
structure NixEvalJobsOutput where
  attr : String
  attrPath : List String
  cacheStatus : String
  drvPath : String
  name : String
  system : String
  neededBuilds : List String
  neededSubstitutes : List String
  requiredSystemFeatures : List String
  error : Option String
deriving Repr, DecidableEq

/-- `RunsOnConfig` from the source. -/
structure RunsOnConfig where
  labels : List String
deriving Repr, DecidableEq

/-- `GitHubActionPackage` from the source. -/
structure GitHubActionPackage where
  attr : String
  name : String
  system : String
  runs_on : RunsOnConfig
  postgresql_version : Option String
deriving Repr, DecidableEq

/-- `NixEvalError` from the source. -/
structure NixEvalError where
  attr : String
  error : String
deriving Repr, DecidableEq

/-- One line of `nix-eval-jobs` stdout, modelled after the external JSON
decoder: blank (`not line.strip()`), undecodable (`json.JSONDecodeError`),
or a decoded record. -/
inductive EvalLine where
  | blank
  | malformed
  | record (data : NixEvalJobsOutput)
deriving Repr, DecidableEq

/-- The `Result[Optional[NixEvalJobsOutput], NixEvalError]` returned by
`parse_nix_eval_line`. -/
inductive ParseResult where
  | ok (r : Option NixEvalJobsOutput)
  | err (e : NixEvalError)
deriving Repr, DecidableEq

/-- `BUILD_RUNNER_MAP` from the source (insertion order preserved). -/
def BUILD_RUNNER_MAP : List (String × RunsOnConfig) :=
  [("x86_64-linux", ⟨["blacksmith-8vcpu-ubuntu-2404"]⟩),
   ("aarch64-linux", ⟨["blacksmith-8vcpu-ubuntu-2404-arm"]⟩),
   ("aarch64-darwin", ⟨["macos-latest"]⟩)]

/-- `get_args(System)`: the supported platform enumeration, in declaration
order. -/
def supportedSystems : List String :=
  ["x86_64-linux", "aarch64-linux", "aarch64-darwin"]

/-- `get_runner_for_package` from the source: `BUILD_RUNNER_MAP.get(system)`. -/
def get_runner_for_package (pkg : NixEvalJobsOutput) : Option RunsOnConfig :=
  (BUILD_RUNNER_MAP.find? (fun p => p.1 == pkg.system)).map (fun p => p.2)

/-! ## RecordParser -/

/-- The predicate of the error-normalisation loop: the stripped line starts
with the token `error:`. -/
def errorLinePred (l : String) : Bool :=
  pyStartsWith (pyStrip l) "error:"

/-- The error-message normalisation inside `parse_nix_eval_line`: locate the
last line beginning (after stripping) with `error:` and keep that line plus
up to three following lines, as one stripped block; otherwise keep the raw
message. -/
def normalizeError (msg : String) : String :=
  let ls := pySplit msg '\n'
  match findLastIdx errorLinePred ls with
  | none => msg
  | some i => pyStrip (pyJoin "\n" ((ls.drop i).take (min (i + 4) ls.length - i)))

/-- `parse_nix_eval_line` from the source.  The mutable `drv_paths` set is
modelled as a list threaded through the call (membership is what matters);
the returned list is the updated set. -/
def parse_nix_eval_line (line : EvalLine) (drv_paths : List String) :
    ParseResult × List String :=
  match line with
  | .blank => (.ok none, drv_paths)
  | .malformed => (.ok none, drv_paths)
  | .record data =>
    match data.error with
    | some msg => (.err ⟨data.attr, normalizeError msg⟩, drv_paths)
    | none =>
      if drv_paths.contains data.drvPath then
        (.ok none, drv_paths)
      else if data.requiredSystemFeatures.contains "nixos-test" && data.system == "x86_64-linux" then
        (.ok none, drv_paths)
      else
        (.ok (some data), drv_paths ++ [data.drvPath])

/-- The stdout loop of `run_nix_eval_jobs`: parse every line with a shared
seen-set, collecting packages and errors in order.  Returns
(packages, final seen-set, errors). -/
def parseLoop : List EvalLine → List String →
    List NixEvalJobsOutput × List String × List NixEvalError
  | [], seen => ([], seen, [])
  | l :: ls, seen =>
    match parse_nix_eval_line l seen with
    | (.err e, seen') =>
      let r := parseLoop ls seen'
      (r.1, r.2.1, e :: r.2.2)
    | (.ok none, seen') => parseLoop ls seen'
    | (.ok (some d), seen') =>
      let r := parseLoop ls seen'
      (d :: r.1, r.2.1, r.2.2)

/-- Packages and errors parsed from the stdout stream (seen-set starts empty,
as in `run_nix_eval_jobs`). -/
def parseStdout (lines : List EvalLine) :
    List NixEvalJobsOutput × List NixEvalError :=
  ((parseLoop lines []).1, (parseLoop lines []).2.2)

/-- The stderr loop of `run_nix_eval_jobs`: keep lines whose stripped form
starts with `warning:` or `evaluation warning:`, dropping the first 8
characters and stripping the remainder. -/
def run_warning_filter (stderrLines : List String) : List String :=
  stderrLines.filterMap (fun line =>
    let t := pyStrip line
    if pyStartsWith t "warning:" || pyStartsWith t "evaluation warning:" then
      some (pyStrip (pySliceFrom t 8))
    else
      none)

/-! ## Classifier -/

/-- `is_extension_pkg` from the source: `attr.split(".")[-2] == "exts"`.
Python raises `IndexError` when the split has fewer than two fields. -/
def is_extension_pkg (pkg : NixEvalJobsOutput) : Except PyExn Bool :=
  let attrs := pySplit pkg.attr '.'
  if attrs.length < 2 then .error .indexError
  else .ok (attrs.getD (attrs.length - 2) "" == "exts")

/-- `clean_package_for_output` from the source: look up the runner
(`ValueError` when absent), then derive the optional PostgreSQL version for
extension packages (`attrs[-3].split("_")[-1]`, `IndexError` when the split
has fewer than three fields). -/
def clean_package_for_output (pkg : NixEvalJobsOutput) :
    Except PyExn GitHubActionPackage :=
  match get_runner_for_package pkg with
  | none => .error .valueError
  | some runner =>
    match is_extension_pkg pkg with
    | .error e => .error e
    | .ok isExt =>
      if isExt then
        let attrs := pySplit pkg.attr '.'
        if attrs.length < 3 then .error .indexError
        else
          let ver := (pySplit (attrs.getD (attrs.length - 3) "") '_').getLastD ""
          .ok ⟨pkg.attr, pkg.name, pkg.system, runner, some ver⟩
      else
        .ok ⟨pkg.attr, pkg.name, pkg.system, runner, none⟩

/-! ## ClosureSorter -/

/-- A dependency graph as an ordered association list from node to its
predecessor set, the argument shape of `graphlib.TopologicalSorter`. -/
abbrev Graph := List (String × List String)

/-- The keys of a graph. -/
def graphKeys (g : Graph) : List String := g.map (fun p => p.1)

/-- The predecessor list recorded for `n` in `g` (empty when `n` is not a
key). -/
def predsOf (g : Graph) (n : String) : List String :=
  ((g.find? (fun p => p.1 == n)).map (fun p => p.2)).getD []

/-- One dependency edge: `b` is a recorded predecessor of `a` in `g`. -/
def Step (g : Graph) (a b : String) : Prop :=
  b ∈ predsOf g a

instance (g : Graph) (a b : String) : Decidable (Step g a b) :=
  inferInstanceAs (Decidable (b ∈ predsOf g a))

/-- A cycle of `g`: a nonempty node list each of whose elements steps to the
next, wrapping around from the last back to the first. -/
def IsCycle (g : Graph) (c : List String) : Prop :=
  c ≠ [] ∧ List.Chain' (Step g) (c ++ c.take 1)

/-- Boolean chain checker used to decide `IsCycle` on concrete inputs. -/
def chainB (R : String → String → Bool) : List String → Bool
  | [] => true
  | [_] => true
  | a :: b :: t => R a b && chainB R (b :: t)

instance (g : Graph) (c : List String) : Decidable (IsCycle g c) :=
  decidable_of_iff
    (c ≠ [] ∧ chainB (fun a b => (predsOf g a).contains b) (c ++ c.take 1) = true)
    (by
      apply and_congr Iff.rfl
      have hgen : ∀ l : List String,
          chainB (fun a b => (predsOf g a).contains b) l = true ↔
            List.Chain' (Step g) l := by
        intro l
        induction l with
        | nil => simp [chainB]
        | cons a t iht =>
          cases t with
          | nil => simp [chainB]
          | cons b t2 =>
            rw [List.chain'_cons]
            simp only [chainB, Bool.and_eq_true]
            rw [iht]
            apply and_congr _ Iff.rfl
            show (predsOf g a).contains b = true ↔ Step g a b
            unfold Step
            simp [List.contains_iff_exists_mem_beq]
      exact hgen _)

/-- `a` occurs strictly before some occurrence of `b` in `l`. -/
def OccursBefore (l : List String) (a b : String) : Prop :=
  ∃ l₁ l₂, l = l₁ ++ b :: l₂ ∧ a ∈ l₁

/-- Overwriting insertion into an ordered association list: Python
`d[k] = v`. -/
def setKey {A : Type} (m : List (String × A)) (k : String) (v : A) :
    List (String × A) :=
  if m.any (fun p => p.1 == k) then
    m.map (fun p => if p.1 == k then (p.1, v) else p)
  else
    m ++ [(k, v)]

/-- Build a Python dict (insertion-ordered, last write wins) from a list of
key-value pairs. -/
def dictOfList {A : Type} (l : List (String × A)) : List (String × A) :=
  l.foldl (fun m p => setKey m p.1 p.2) []

/-- A pending node is ready when all of its recorded predecessors have been
emitted. -/
def nodeReady (done : List String) (p : String × List String) : Bool :=
  p.2.all (fun d => done.contains d)

/-- Kahn's algorithm with explicit fuel: repeatedly move every pending node
whose recorded predecessors are all already emitted; a nonempty pending set
with no ready node is a cycle (`graphlib.CycleError`).  The fuel only bounds
the number of rounds; `topo_static_order` supplies enough fuel that it is
never exhausted. -/
def kahnGo : Nat → Graph → List String → Except PyExn (List String)
  | 0, pending, done =>
    if pending.isEmpty then .ok done else .error .cycleError
  | fuel + 1, pending, done =>
    if pending.isEmpty then .ok done
    else
      if (pending.filter (nodeReady done)).isEmpty then .error .cycleError
      else
        kahnGo fuel (pending.filter (fun p => !nodeReady done p))
          (done ++ (pending.filter (nodeReady done)).map (fun p => p.1))

/-- Model of `graphlib.TopologicalSorter(graph).static_order()`: a
topological order of the keys (every predecessor list here is a subset of
the keys), or `CycleError` when the graph is cyclic. -/
def topo_static_order (g : Graph) : Except PyExn (List String) :=
  kahnGo g.length g []

/-- The successor function used in the cycle-extraction argument: some
recorded predecessor of `x` that is again a key of `S`. -/
def stuckPick (S : Graph) (x : String) : String :=
  match S.find? (fun p => p.1 == x) with
  | some p => (p.2.find? (fun d => (graphKeys S).contains d)).getD ""
  | none => ""

/-- The restricted dependency set of one job, as built in
`sort_pkgs_by_closures`: `(neededSubstitutes ∪ neededBuilds) ∩ job_set`
minus the job's own `drvPath`.  The Python value is a set; it is modelled
as a duplicate-free list. -/
def restrictedPreds (jobSet : List String) (k : NixEvalJobsOutput) : List String :=
  ((k.neededSubstitutes ++ k.neededBuilds).filter
    (fun d => jobSet.contains d && d != k.drvPath)).dedup

/-- The `job_closures` dict of `sort_pkgs_by_closures`. -/
def jobClosures (jobs : List NixEvalJobsOutput) : Graph :=
  dictOfList (jobs.map (fun k => (k.drvPath, restrictedPreds (jobs.map (fun j => j.drvPath)) k)))

/-- The `job_by_drv` dict of `sort_pkgs_by_closures`. -/
def jobByDrv (jobs : List NixEvalJobsOutput) : List (String × NixEvalJobsOutput) :=
  dictOfList (jobs.map (fun j => (j.drvPath, j)))

/-- `sort_pkgs_by_closures` from the source. -/
def sort_pkgs_by_closures (jobs : List NixEvalJobsOutput) :
    Except PyExn (List NixEvalJobsOutput) :=
  match topo_static_order (jobClosures jobs) with
  | .error e => .error e
  | .ok order =>
    .ok (order.filterMap (fun item =>
      ((jobByDrv jobs).find? (fun p => p.1 == item)).map (fun p => p.2)))

/-! ## MatrixAssembler -/

/-- A `defaultdict(list)` grouping, as an ordered association list; the
matrix maps a (normalised) platform key to its `include` list. -/
abbrev Groups := List (String × List GitHubActionPackage)

/-- Appending to a `defaultdict(list)` entry: create the key on first use,
append afterwards. -/
def addToGroup {A : Type} (m : List (String × List A)) (k : String) (v : A) :
    List (String × List A) :=
  if m.any (fun p => p.1 == k) then
    m.map (fun p => if p.1 == k then (p.1, p.2 ++ [v]) else p)
  else
    m ++ [(k, [v])]

/-- One iteration of the grouping loop in `main`: not-yet-built units are
classified (`clean_package_for_output`, which may raise) and then routed by
the `attr` prefix into the checks or packages group, or dropped.  The state
is (packages_by_system, checks_by_system). -/
def processPkg (st : Groups × Groups) (pkg : NixEvalJobsOutput) :
    Except PyExn (Groups × Groups) :=
  if pkg.cacheStatus == "notBuilt" then
    match clean_package_for_output pkg with
    | .error e => .error e
    | .ok cleaned =>
      if pyStartsWith pkg.attr "checks." then
        .ok (st.1, addToGroup st.2 pkg.system cleaned)
      else if pyStartsWith pkg.attr "packages." then
        .ok (addToGroup st.1 pkg.system cleaned, st.2)
      else
        .ok st
  else
    .ok st

/-- Soundness invariant of a grouping: every entry's list is nonempty, and
every element stems from a not-yet-built unit of `src` targeting that
platform whose `attr` carries the given routing prefix. -/
def GroupsFrom (src : List NixEvalJobsOutput) (pre : String) (g : Groups) : Prop :=
  ∀ q ∈ g, q.2 ≠ [] ∧ ∀ e ∈ q.2, ∃ pkg ∈ src,
    pkg.cacheStatus = "notBuilt" ∧ pkg.system = q.1 ∧
    pyStartsWith pkg.attr pre = true ∧ clean_package_for_output pkg = .ok e

/-- The placeholder entry inserted for a platform with nothing to build. -/
def placeholderPkg (nm sys : String) : GitHubActionPackage :=
  ⟨"", nm, sys, ⟨["ubuntu-latest"]⟩, none⟩

/-- Rebuild a grouping with hyphens in the keys replaced by underscores
(the `packages_output` / `checks_output` dict-building loops). -/
def underscoreGroups (g : Groups) : Groups :=
  g.foldl (fun m p => setKey m (pyUnderscore p.1) p.2) []

/-- The placeholder-filling loop over `get_args(System)`. -/
def fillMissing (nm : String) (m : Groups) : Groups :=
  supportedSystems.foldl
    (fun m sys =>
      if m.any (fun p => p.1 == pyUnderscore sys) then m
      else setKey m (pyUnderscore sys) [placeholderPkg nm sys])
    m

/-- Assembly of one output map from its grouping: normalise keys, then
guarantee every supported platform a nonempty entry. -/
def assembleMatrix (nm : String) (g : Groups) : Groups :=
  fillMissing nm (underscoreGroups g)

/-- Key lookup in an assembled matrix. -/
def lookupKey (m : Groups) (k : String) : Option (List GitHubActionPackage) :=
  (m.find? (fun p => p.1 == k)).map (fun p => p.2)

/-! ## DiagnosticsAggregator -/

/-- Grouping of errors by exact message (`errors_by_message`), in first
occurrence order, each with its affected attrs in input order. -/
def groupErrors (errs : List NixEvalError) : List (String × List String) :=
  errs.foldl (fun m e => addToGroup m e.error e.attr) []

/-- Formatting of one grouped error report, newline-escaped for the
annotation sink. -/
def formatErrorReport (msg : String) (attrs : List String) : String :=
  pyEscapeNewlines
    (if attrs.length > 1 then
      "Affected attributes (" ++ toString attrs.length ++ "): " ++
        pyJoin ", " attrs ++ "\n\n" ++ msg
    else
      "Attribute: " ++ attrs.headD "" ++ "\n\n" ++ msg)

/-- All grouped error reports, in emission order. -/
def formatErrorReports (errs : List NixEvalError) : List String :=
  (groupErrors errs).map (fun p => formatErrorReport p.1 p.2)

/-- `Counter(warnings_list)`: occurrence counts in first occurrence order. -/
def countWarnings (ws : List String) : List (String × Nat) :=
  ws.foldl
    (fun m w =>
      if m.any (fun p => p.1 == w) then
        m.map (fun p => if p.1 == w then (p.1, p.2 + 1) else p)
      else
        m ++ [(w, 1)])
    []

/-- The warning reports emitted by `main`. -/
def formatWarningReports (ws : List String) : List String :=
  (countWarnings ws).map (fun p =>
    if p.2 > 1 then p.1 ++ " (occurred " ++ toString p.2 ++ " times)" else p.1)

/-! ## main -/

/-- Observable outcome of a completed run: the diagnostic reports emitted,
whether the matrix notice was logged, the named outputs set, and the exit
status. -/
structure RunOutcome where
  warningReports : List String
  errorReports : List String
  noticeEmitted : Bool
  outputs : List (String × Groups)
  exitCode : Nat
deriving Repr, DecidableEq

/-- `main` from the source, as a function of the two captured streams: parse
stdout, sort by closures, group and assemble the matrices (any Python
exception aborts the run), then either report errors and exit 1, or emit the
notice and both named outputs and exit 0.  Subprocess invocation and JSON
serialisation of the outputs are external; the outputs carry the matrix
values directly. -/
def mainRun (stdoutLines : List EvalLine) (stderrLines : List String) :
    Except PyExn RunOutcome :=
  let parsed := parseStdout stdoutLines
  let warnings := run_warning_filter stderrLines
  match sort_pkgs_by_closures parsed.1 with
  | .error e => .error e
  | .ok sorted =>
    match sorted.foldlM processPkg (([], []) : Groups × Groups) with
    | .error e => .error e
    | .ok groups =>
      let packagesOutput := assembleMatrix "no packages to build" groups.1
      let checksOutput := assembleMatrix "no checks to build" groups.2
      .ok ⟨formatWarningReports warnings,
           formatErrorReports parsed.2,
           parsed.2.isEmpty,
           if parsed.2.isEmpty then
             [("packages_matrix", packagesOutput), ("checks_matrix", checksOutput)]
           else [],
           if parsed.2.isEmpty then 0 else 1⟩

/-! ## General helper lemmas -/

theorem eq_of_mem_of_keys_nodup {A : Type} {l : List (String × A)}
    (h : (l.map Prod.fst).Nodup) {p q : String × A}
    (hp : p ∈ l) (hq : q ∈ l) (he : p.1 = q.1) : p = q := by
  induction l with
  | nil => cases hp
  | cons a as ih =>
    simp only [List.map_cons, List.nodup_cons] at h
    rcases List.mem_cons.1 hp with rfl | hp' <;>
      rcases List.mem_cons.1 hq with rfl | hq'
    · rfl
    · exact absurd (he ▸ List.mem_map_of_mem Prod.fst hq') h.1
    · exact absurd (he ▸ List.mem_map_of_mem Prod.fst hp') h.1
    · exact ih h.2 hp' hq'

theorem contains_eq_true_iff {l : List String} {s : String} :
    l.contains s = true ↔ s ∈ l := by
  simp [List.contains_iff_exists_mem_beq]

theorem contains_eq_false_iff {l : List String} {s : String} :
    l.contains s = false ↔ s ∉ l := by
  rw [← Bool.not_eq_true, not_iff_not]; exact contains_eq_true_iff

theorem any_key_iff {A : Type} {m : List (String × A)} {k : String} :
    m.any (fun p => p.1 == k) = true ↔ ∃ p ∈ m, p.1 = k := by
  simp [List.any_eq_true]

/-! ## findLastIdx -/

theorem findLastIdx_eq_none {α : Type} (p : α → Bool) (l : List α) :
    findLastIdx p l = none ↔ ∀ a ∈ l, p a = false := by
  induction l with
  | nil => simp [findLastIdx]
  | cons a as ih =>
    simp only [findLastIdx]
    cases h : findLastIdx p as with
    | some k =>
      simp only [List.mem_cons]
      constructor
      · intro hc; cases hc
      · intro hall
        have : findLastIdx p as = none := (ih).2 (fun x hx => hall x (Or.inr hx))
        rw [h] at this; cases this
    | none =>
      have has : ∀ x ∈ as, p x = false := ih.1 h
      by_cases hpa : p a = true
      · simp [hpa]
      · simp only [Bool.not_eq_true] at hpa
        rw [if_neg (by rw [hpa]; exact Bool.false_ne_true)]
        constructor
        · intro _ x hx
          rcases List.mem_cons.1 hx with rfl | hx'
          · exact hpa
          · exact has x hx'
        · intro _; rfl

theorem findLastIdx_eq_some {α : Type} (p : α → Bool) (d : α) :
    ∀ (l : List α) (i : Nat), findLastIdx p l = some i →
      i < l.length ∧ p (l.getD i d) = true ∧
        ∀ j, i < j → j < l.length → p (l.getD j d) = false := by
  intro l
  induction l with
  | nil => intro i h; cases h
  | cons a as ih =>
    intro i h
    simp only [findLastIdx] at h
    cases hrec : findLastIdx p as with
    | some k =>
      rw [hrec] at h
      injection h with h
      subst h
      obtain ⟨hk, hpk, hafter⟩ := ih k hrec
      refine ⟨by simpa using Nat.succ_lt_succ hk, by simpa using hpk, ?_⟩
      intro j hj hjlen
      cases j with
      | zero => omega
      | succ j' =>
        simpa using hafter j' (Nat.lt_of_succ_lt_succ hj)
          (by simpa using Nat.lt_of_succ_lt_succ hjlen)
    | none =>
      rw [hrec] at h
      by_cases hpa : p a = true
      · rw [if_pos hpa] at h
        injection h with h
        subst h
        refine ⟨by simp, by simpa using hpa, ?_⟩
        intro j hj hjlen
        cases j with
        | zero => omega
        | succ j' =>
          have hj' : j' < as.length := by simpa using Nat.lt_of_succ_lt_succ hjlen
          have hmem : as.getD j' d ∈ as := by
            rw [List.getD_eq_getElem as d hj']
            exact List.getElem_mem hj'
          simpa using (findLastIdx_eq_none p as).1 hrec _ hmem
      · rw [if_neg hpa] at h; cases h

/-! ## Parsing lemmas -/

/-- Case analysis of `parse_nix_eval_line`: error, no-op, or emit-and-record. -/
theorem parse_line_cases (line : EvalLine) (seen : List String) :
    (∃ e, parse_nix_eval_line line seen = (.err e, seen)) ∨
    parse_nix_eval_line line seen = (.ok none, seen) ∨
    (∃ d, line = .record d ∧ d.error = none ∧ seen.contains d.drvPath = false ∧
      parse_nix_eval_line line seen = (.ok (some d), seen ++ [d.drvPath])) := by
  cases line with
  | blank => exact Or.inr (Or.inl rfl)
  | malformed => exact Or.inr (Or.inl rfl)
  | record data =>
    cases herr : data.error with
    | some msg =>
      exact Or.inl ⟨⟨data.attr, normalizeError msg⟩, by simp [parse_nix_eval_line, herr]⟩
    | none =>
      by_cases hc : data.drvPath ∈ seen
      · exact Or.inr (Or.inl (by simp [parse_nix_eval_line, herr, hc]))
      · by_cases hex : "nixos-test" ∈ data.requiredSystemFeatures ∧
            data.system = "x86_64-linux"
        · exact Or.inr (Or.inl (by simp [parse_nix_eval_line, herr, hc, hex]))
        · exact Or.inr (Or.inr ⟨data, rfl, herr, contains_eq_false_iff.2 hc,
            by simp [parse_nix_eval_line, herr, hc, hex]⟩)

/-- Every parsed unit's identifier was fresh at emission time, and the
emitted units have pairwise-distinct `drvPath`s. -/
theorem parseLoop_nodup :
    ∀ (lines : List EvalLine) (seen : List String),
      (∀ r ∈ (parseLoop lines seen).1, r.drvPath ∉ seen) ∧
        ((parseLoop lines seen).1.map (fun r => r.drvPath)).Nodup := by
  intro lines
  induction lines with
  | nil => intro seen; simp [parseLoop]
  | cons l ls ih =>
    intro seen
    rcases parse_line_cases l seen with ⟨e, hp⟩ | hp | ⟨d, _, _, hc, hp⟩
    · simpa only [parseLoop, hp] using ih seen
    · simpa only [parseLoop, hp] using ih seen
    · have ihs := ih (seen ++ [d.drvPath])
      simp only [parseLoop, hp]
      constructor
      · intro r hr
        rcases List.mem_cons.1 hr with rfl | hr'
        · exact contains_eq_false_iff.1 hc
        · intro hmem
          exact ihs.1 r hr' (List.mem_append_left _ hmem)
      · refine List.nodup_cons.2 ⟨?_, ihs.2⟩
        intro hmem
        obtain ⟨r, hr, hre⟩ := List.mem_map.1 hmem
        exact ihs.1 r hr (hre ▸ List.mem_append_right _ (List.mem_singleton.2 rfl))

theorem parseStdout_nodup (lines : List EvalLine) :
    ((parseStdout lines).1.map (fun r => r.drvPath)).Nodup :=
  (parseLoop_nodup lines []).2

/-! ## Claim C8: error-message normalisation -/

/-- C8: a stream record carrying an `error` field parses to an `EvalError`
whose message is normalised as follows: if some line of the raw message
begins (after stripping) with the token `error:`, the message is the last
such line plus up to three following lines, joined and stripped as one
block; if no line matches, the raw message is kept verbatim.  The seen-set
is untouched. -/
theorem c8_error_message_normalisation (data : NixEvalJobsOutput)
    (seen : List String) (msg : String) (h : data.error = some msg) :
    parse_nix_eval_line (.record data) seen =
      (.err ⟨data.attr, normalizeError msg⟩, seen)
    ∧ (findLastIdx errorLinePred (pySplit msg '\n') = none →
        normalizeError msg = msg)
    ∧ (findLastIdx errorLinePred (pySplit msg '\n') = none ↔
        ∀ l ∈ pySplit msg '\n', errorLinePred l = false)
    ∧ ∀ i, findLastIdx errorLinePred (pySplit msg '\n') = some i →
        normalizeError msg =
          pyStrip (pyJoin "\n" (((pySplit msg '\n').drop i).take
            (min (i + 4) (pySplit msg '\n').length - i)))
        ∧ i < (pySplit msg '\n').length
        ∧ errorLinePred ((pySplit msg '\n').getD i "") = true
        ∧ ∀ j, i < j → j < (pySplit msg '\n').length →
            errorLinePred ((pySplit msg '\n').getD j "") = false := by
  refine ⟨by simp [parse_nix_eval_line, h], ?_, findLastIdx_eq_none _ _, ?_⟩
  · intro hn
    simp [normalizeError, hn]
  · intro i hi
    obtain ⟨hlen, hpred, hafter⟩ := findLastIdx_eq_some errorLinePred "" _ i hi
    exact ⟨by simp [normalizeError, hi], hlen, hpred, hafter⟩

/-- Witness for C8 on a concrete error record. -/
theorem c8_error_message_normalisation_witness :
    parse_nix_eval_line
        (.record ⟨"pkg.a", [], "notBuilt", "/nix/store/x.drv", "x", "x86_64-linux",
          [], [], [], some "trace: junk\nerror: boom\nat foo.nix:1"⟩) [] =
      (.err ⟨"pkg.a", normalizeError "trace: junk\nerror: boom\nat foo.nix:1"⟩, [])
    ∧ normalizeError "trace: junk\nerror: boom\nat foo.nix:1" =
        "error: boom\nat foo.nix:1" :=
  ⟨(c8_error_message_normalisation _ [] _ rfl).1, by decide⟩

/-! ## Claim C10: warning-prefix slicing -/

/-- C10: a stderr line whose stripped form starts with `warning:` or with
`evaluation warning:` has exactly its first 8 characters removed and the
remainder stripped; hence `warning:` is removed in full while an
`evaluation warning:` line keeps the residue `on warning:`; any other line
is ignored. -/
theorem c10_warning_prefix_slicing (line : String) :
    ((pyStartsWith (pyStrip line) "warning:" = true ∨
      pyStartsWith (pyStrip line) "evaluation warning:" = true) →
      run_warning_filter [line] = [pyStrip (pySliceFrom (pyStrip line) 8)])
    ∧ (∀ rest, pyStrip line = "warning:" ++ rest →
        run_warning_filter [line] = [pyStrip rest])
    ∧ (∀ rest, pyStrip line = "evaluation warning:" ++ rest →
        run_warning_filter [line] = [pyStrip ("on warning:" ++ rest)])
    ∧ (pyStartsWith (pyStrip line) "warning:" = false →
        pyStartsWith (pyStrip line) "evaluation warning:" = false →
        run_warning_filter [line] = []) := by
  have hbranch : ∀ h : (pyStartsWith (pyStrip line) "warning:" = true ∨
      pyStartsWith (pyStrip line) "evaluation warning:" = true),
      run_warning_filter [line] = [pyStrip (pySliceFrom (pyStrip line) 8)] := by
    intro h
    have hcond : (pyStartsWith (pyStrip line) "warning:" ||
        pyStartsWith (pyStrip line) "evaluation warning:") = true := by
      rcases h with h | h <;> simp [h]
    simp only [run_warning_filter, List.filterMap_cons, List.filterMap_nil]
    rw [if_pos hcond]
  refine ⟨hbranch, ?_, ?_, ?_⟩
  · intro rest hr
    have hsw : pyStartsWith (pyStrip line) "warning:" = true := by
      rw [hr]
      unfold pyStartsWith
      rw [String.data_append, List.isPrefixOf_iff_prefix]
      exact List.prefix_append _ _
    have hslice : pySliceFrom (pyStrip line) 8 = rest := by
      rw [hr]
      show (⟨(("warning:" : String) ++ rest).data.drop 8⟩ : String) = rest
      rw [String.data_append, List.drop_append_of_le_length (by decide)]
      have : ("warning:" : String).data.drop 8 = [] := by decide
      rw [this]
      rfl
    rw [hbranch (Or.inl hsw), hslice]
  · intro rest hr
    have hsw : pyStartsWith (pyStrip line) "evaluation warning:" = true := by
      rw [hr]
      unfold pyStartsWith
      rw [String.data_append, List.isPrefixOf_iff_prefix]
      exact List.prefix_append _ _
    have hslice : pySliceFrom (pyStrip line) 8 = "on warning:" ++ rest := by
      rw [hr]
      show (⟨(("evaluation warning:" : String) ++ rest).data.drop 8⟩ : String) =
        "on warning:" ++ rest
      rw [String.data_append, List.drop_append_of_le_length (by decide)]
      have : ("evaluation warning:" : String).data.drop 8 =
          ("on warning:" : String).data := by decide
      rw [this]
      rfl
    rw [hbranch (Or.inr hsw), hslice]
  · intro h1 h2
    simp [run_warning_filter, List.filterMap_cons, h1, h2]

/-- Witness for C10 on concrete stderr lines of both shapes. -/
theorem c10_warning_prefix_slicing_witness :
    run_warning_filter ["warning: unknown flake setting"] =
      [pyStrip " unknown flake setting"]
    ∧ run_warning_filter ["evaluation warning: pg needs attention"] =
      [pyStrip ("on warning:" ++ " pg needs attention")] :=
  ⟨(c10_warning_prefix_slicing "warning: unknown flake setting").2.1
      " unknown flake setting" (by decide),
   (c10_warning_prefix_slicing "evaluation warning: pg needs attention").2.2.1
      " pg needs attention" (by decide)⟩

/-! ## Kahn's algorithm: success analysis -/

theorem mem_graphKeys {g : Graph} {d : String} :
    d ∈ graphKeys g ↔ ∃ q ∈ g, q.1 = d := by
  simp [graphKeys]

theorem keys_nodup_of_filter {g : Graph} (h : (graphKeys g).Nodup)
    (f : String × List String → Bool) : (graphKeys (g.filter f)).Nodup := by
  unfold graphKeys
  exact h.sublist (List.Sublist.map _ (List.filter_sublist g))

/-- If `kahnGo` succeeds then the output extends `done` by a permutation of
the pending keys, and every recorded predecessor of a pending node occurs
strictly before that node in the output. -/
theorem kahnGo_ok_spec :
    ∀ (fuel : Nat) (pending : Graph) (done out : List String),
      (graphKeys pending).Nodup →
      (∀ k ∈ graphKeys pending, k ∉ done) →
      (∀ p ∈ pending, ∀ d ∈ p.2, d ∈ done ∨ d ∈ graphKeys pending) →
      kahnGo fuel pending done = .ok out →
      ∃ tail, out = done ++ tail ∧ List.Perm tail (graphKeys pending) ∧
        ∀ p ∈ pending, ∀ d ∈ p.2, OccursBefore out d p.1 := by
  intro fuel
  induction fuel with
  | zero =>
    intro pending done out _ _ _ hok
    by_cases hemp : pending = []
    · subst hemp
      simp only [kahnGo, List.isEmpty_nil, if_true] at hok
      injection hok with hok
      exact ⟨[], by simp [hok.symm], by simp [graphKeys], by simp⟩
    · have hpe : pending.isEmpty = false := by simpa [List.isEmpty_iff] using hemp
      simp only [kahnGo, hpe, Bool.false_eq_true, if_false] at hok
      cases hok
  | succ n ih =>
    intro pending done out hnd hdisj hcl hok
    by_cases hemp : pending = []
    · subst hemp
      simp only [kahnGo, List.isEmpty_nil, if_true] at hok
      injection hok with hok
      exact ⟨[], by simp [hok.symm], by simp [graphKeys], by simp⟩
    · have hpe : pending.isEmpty = false := by simpa [List.isEmpty_iff] using hemp
      simp only [kahnGo, hpe, Bool.false_eq_true, if_false] at hok
      by_cases hre : (pending.filter (nodeReady done)).isEmpty = true
      · rw [if_pos hre] at hok; cases hok
      · rw [if_neg hre] at hok
        have hnd' : (graphKeys (pending.filter (fun p => !nodeReady done p))).Nodup :=
          keys_nodup_of_filter hnd _
        have hkey_uniq : ∀ {p q : String × List String},
            p ∈ pending → q ∈ pending → p.1 = q.1 → p = q :=
          fun hp hq he => eq_of_mem_of_keys_nodup hnd hp hq he
        have hdisj' : ∀ k ∈ graphKeys (pending.filter (fun p => !nodeReady done p)),
            k ∉ done ++ (pending.filter (nodeReady done)).map (fun p => p.1) := by
          intro k hk
          obtain ⟨p, hp, rfl⟩ := mem_graphKeys.1 hk
          have hpmem : p ∈ pending := List.mem_of_mem_filter hp
          have hpnot : nodeReady done p = false := by
            have := List.of_mem_filter hp
            simpa using this
          intro hmem
          rcases List.mem_append.1 hmem with hmem | hmem
          · exact hdisj p.1 (mem_graphKeys.2 ⟨p, hpmem, rfl⟩) hmem
          · obtain ⟨q, hq, hqe⟩ := List.mem_map.1 hmem
            have hqmem : q ∈ pending := List.mem_of_mem_filter hq
            have hqready : nodeReady done q = true := List.of_mem_filter hq
            have : p = q := hkey_uniq hpmem hqmem hqe.symm
            rw [this] at hpnot
            rw [hpnot] at hqready
            cases hqready
        have hcl' : ∀ p ∈ pending.filter (fun p => !nodeReady done p), ∀ d ∈ p.2,
            d ∈ done ++ (pending.filter (nodeReady done)).map (fun p => p.1) ∨
              d ∈ graphKeys (pending.filter (fun p => !nodeReady done p)) := by
          intro p hp d hd
          have hpmem : p ∈ pending := List.mem_of_mem_filter hp
          rcases hcl p hpmem d hd with hdone | hkeys
          · exact Or.inl (List.mem_append_left _ hdone)
          · obtain ⟨q, hq, rfl⟩ := mem_graphKeys.1 hkeys
            by_cases hqr : nodeReady done q = true
            · exact Or.inl (List.mem_append_right _
                (List.mem_map_of_mem _ (List.mem_filter.2 ⟨hq, hqr⟩)))
            · refine Or.inr (mem_graphKeys.2 ⟨q, List.mem_filter.2 ⟨hq, ?_⟩, rfl⟩)
              simp [hqr]
        obtain ⟨tail', htl, hperm, hbef⟩ := ih _ _ out hnd' hdisj' hcl' hok
        refine ⟨(pending.filter (nodeReady done)).map (fun p => p.1) ++ tail',
          by rw [htl, List.append_assoc], ?_, ?_⟩
        · have h1 : List.Perm
              ((pending.filter (nodeReady done)).map (fun p => p.1) ++ tail')
              ((pending.filter (nodeReady done)).map (fun p => p.1) ++
                graphKeys (pending.filter (fun p => !nodeReady done p))) :=
            List.Perm.append_left _ hperm
          have h2 : List.Perm
              (pending.filter (nodeReady done) ++
                pending.filter (fun p => !nodeReady done p)) pending :=
            List.filter_append_perm (nodeReady done) pending
          have h3 := h2.map (fun p : String × List String => p.1)
          rw [List.map_append] at h3
          exact h1.trans h3
        · intro p hp d hd
          by_cases hr : nodeReady done p = true
          · have hd_done : d ∈ done := by
              have := List.all_eq_true.1 hr d hd
              exact contains_eq_true_iff.1 this
            have hkey : p.1 ∈ (pending.filter (nodeReady done)).map (fun p => p.1) :=
              List.mem_map_of_mem _ (List.mem_filter.2 ⟨hp, hr⟩)
            obtain ⟨r₁, r₂, hsplit⟩ := List.append_of_mem hkey
            refine ⟨done ++ r₁, r₂ ++ tail', ?_, List.mem_append_left _ hd_done⟩
            rw [htl, hsplit]
            simp [List.append_assoc]
          · exact hbef p (List.mem_filter.2 ⟨hp, by simp [hr]⟩) d hd

/-! ## Kahn's algorithm: stuck states expose a cycle -/

theorem predsOf_eq_of_mem {g : Graph} (hg : (graphKeys g).Nodup)
    {p : String × List String} (hp : p ∈ g) : predsOf g p.1 = p.2 := by
  unfold predsOf
  cases hf : g.find? (fun q => q.1 == p.1) with
  | none =>
    exfalso
    have := List.find?_eq_none.1 hf p hp
    simp at this
  | some q =>
    have hq : q ∈ g := List.mem_of_find?_eq_some hf
    have hqe : q.1 = p.1 := by simpa using List.find?_some hf
    have : q = p := eq_of_mem_of_keys_nodup hg hq hp hqe
    subst this
    simp

theorem step_iff_of_mem {g : Graph} (hg : (graphKeys g).Nodup)
    {p : String × List String} (hp : p ∈ g) {d : String} :
    Step g p.1 d ↔ d ∈ p.2 := by
  unfold Step
  rw [predsOf_eq_of_mem hg hp]

theorem step_dest {g : Graph} {x y : String} (h : Step g x y) :
    ∃ p ∈ g, p.1 = x ∧ y ∈ p.2 := by
  unfold Step predsOf at h
  cases hf : g.find? (fun q => q.1 == x) with
  | none => rw [hf] at h; simp at h
  | some q =>
    rw [hf] at h
    simp at h
    exact ⟨q, List.mem_of_find?_eq_some hf, by simpa using List.find?_some hf, h⟩

theorem stuckPick_spec {g : Graph} (hg : (graphKeys g).Nodup)
    {S : Graph} (hSg : ∀ p ∈ S, p ∈ g)
    (hstuck : ∀ p ∈ S, ∃ d ∈ p.2, d ∈ graphKeys S) :
    ∀ x ∈ graphKeys S, stuckPick S x ∈ graphKeys S ∧ Step g x (stuckPick S x) := by
  intro x hx
  obtain ⟨p₀, hp₀, hp₀e⟩ := mem_graphKeys.1 hx
  cases hf : S.find? (fun p => p.1 == x) with
  | none =>
    exfalso
    have := List.find?_eq_none.1 hf p₀ hp₀
    simp [hp₀e] at this
  | some p =>
    have hpS : p ∈ S := List.mem_of_find?_eq_some hf
    have hpe : p.1 = x := by simpa using List.find?_some hf
    obtain ⟨d, hd, hdk⟩ := hstuck p hpS
    cases hfi : p.2.find? (fun d => (graphKeys S).contains d) with
    | none =>
      exfalso
      have := List.find?_eq_none.1 hfi d hd
      rw [contains_eq_true_iff.2 hdk] at this
      exact this rfl
    | some d' =>
      have hd'p : d' ∈ p.2 := List.mem_of_find?_eq_some hfi
      have hd'k : (graphKeys S).contains d' = true := List.find?_some hfi
      have hpickd : stuckPick S x = d' := by
        unfold stuckPick
        rw [hf]
        show (p.2.find? (fun d => (graphKeys S).contains d)).getD "" = d'
        rw [hfi]
        rfl
      rw [hpickd]
      refine ⟨contains_eq_true_iff.1 hd'k, ?_⟩
      rw [← hpe]
      exact (step_iff_of_mem hg (hSg p hpS)).2 hd'p

/-- In a nonempty subgraph where every node keeps a predecessor among the
subgraph's keys, the whole graph has a cycle (pigeonhole on the iterated
successor function). -/
theorem exists_cycle_of_stuck (g : Graph) (hg : (graphKeys g).Nodup)
    (S : Graph) (hSg : ∀ p ∈ S, p ∈ g) (hSne : S ≠ [])
    (hstuck : ∀ p ∈ S, ∃ d ∈ p.2, d ∈ graphKeys S) :
    ∃ c, IsCycle g c := by
  obtain ⟨p₀, hp₀⟩ := List.exists_mem_of_ne_nil S hSne
  have hx₀ : p₀.1 ∈ graphKeys S := mem_graphKeys.2 ⟨p₀, hp₀, rfl⟩
  have hpick := stuckPick_spec hg hSg hstuck
  have hseq_mem : ∀ n, (stuckPick S)^[n] p₀.1 ∈ graphKeys S := by
    intro n
    induction n with
    | zero => simpa using hx₀
    | succ m ihm =>
      rw [Function.iterate_succ_apply']
      exact (hpick _ ihm).1
  have hseq_step : ∀ n, Step g ((stuckPick S)^[n] p₀.1) ((stuckPick S)^[n + 1] p₀.1) := by
    intro n
    rw [Function.iterate_succ_apply']
    exact (hpick _ (hseq_mem n)).2
  -- the cycle extracted from a repetition in the iterate sequence
  have hmain : ∀ a b : Nat, a < b →
      (stuckPick S)^[a] p₀.1 = (stuckPick S)^[b] p₀.1 → ∃ c, IsCycle g c := by
    intro a b hab heq
    refine ⟨(List.range (b - a)).map (fun k => (stuckPick S)^[a + k] p₀.1), ?_, ?_⟩
    · apply List.ne_nil_of_length_pos
      simp
      omega
    · have htake : ((List.range (b - a)).map
          (fun k => (stuckPick S)^[a + k] p₀.1)).take 1 = [(stuckPick S)^[a] p₀.1] := by
        obtain ⟨m, hm⟩ : ∃ m, b - a = m + 1 := ⟨b - a - 1, by omega⟩
        rw [hm, List.range_succ_eq_map]
        simp
      rw [htake]
      have happ : (List.range (b - a)).map (fun k => (stuckPick S)^[a + k] p₀.1) ++
          [(stuckPick S)^[a] p₀.1] =
          (List.range (b - a + 1)).map (fun k => (stuckPick S)^[a + k] p₀.1) := by
        rw [List.range_succ, List.map_append]
        have : a + (b - a) = b := by omega
        simp [this, heq]
      rw [happ, List.chain'_map]
      have := (List.chain'_range_succ
        (fun x y => Step g ((stuckPick S)^[a + x] p₀.1) ((stuckPick S)^[a + y] p₀.1))
        (b - a)).2
      apply this
      intro m _
      have : a + (m + 1) = (a + m) + 1 := by omega
      rw [this]
      exact hseq_step (a + m)
  -- pigeonhole over the finitely many keys of S
  have hcard : ((graphKeys S).toFinset).card <
      (Finset.range ((graphKeys S).toFinset.card + 1)).card := by
    simp
  have hmaps : ∀ n ∈ Finset.range ((graphKeys S).toFinset.card + 1),
      (stuckPick S)^[n] p₀.1 ∈ (graphKeys S).toFinset :=
    fun n _ => List.mem_toFinset.2 (hseq_mem n)
  obtain ⟨a, _, b, _, hab, he⟩ :=
    Finset.exists_ne_map_eq_of_card_lt_of_maps_to hcard hmaps
  rcases lt_or_gt_of_ne hab with hlt | hlt
  · exact hmain a b hlt he
  · exact hmain b a hlt he.symm

/-- If `kahnGo` fails on a subgraph of `g` whose fuel covers its size, then
`g` has a cycle. -/
theorem kahnGo_error_cycle (g : Graph) (hg : (graphKeys g).Nodup) :
    ∀ (fuel : Nat) (pending : Graph) (done : List String) (e : PyExn),
      pending.length ≤ fuel →
      (∀ p ∈ pending, p ∈ g) →
      (∀ p ∈ pending, ∀ d ∈ p.2, d ∈ done ∨ d ∈ graphKeys pending) →
      (graphKeys pending).Nodup →
      kahnGo fuel pending done = .error e →
      ∃ c, IsCycle g c := by
  intro fuel
  induction fuel with
  | zero =>
    intro pending done e hlen _ _ _ herr
    have : pending = [] := List.eq_nil_of_length_eq_zero (by omega)
    subst this
    simp [kahnGo] at herr
  | succ n ih =>
    intro pending done e hlen hsub hcl hnd herr
    by_cases hemp : pending = []
    · subst hemp; simp [kahnGo] at herr
    · have hpe : pending.isEmpty = false := by simpa [List.isEmpty_iff] using hemp
      simp only [kahnGo, hpe, Bool.false_eq_true, if_false] at herr
      by_cases hre : (pending.filter (nodeReady done)).isEmpty = true
      · -- stuck round: every pending node keeps a predecessor among the keys
        have hready_nil : pending.filter (nodeReady done) = [] :=
          List.isEmpty_iff.1 hre
        have hstuck : ∀ p ∈ pending, ∃ d ∈ p.2, d ∈ graphKeys pending := by
          intro p hp
          have hnr : nodeReady done p = false := by
            by_contra hh
            have : nodeReady done p = true := by
              cases h' : nodeReady done p
              · exact absurd h' hh
              · rfl
            have hmem : p ∈ pending.filter (nodeReady done) :=
              List.mem_filter.2 ⟨hp, this⟩
            rw [hready_nil] at hmem
            cases hmem
          have hnall : ¬ ∀ d ∈ p.2, done.contains d = true := by
            rw [← List.all_eq_true]
            simp [nodeReady] at hnr
            simp [hnr]
          push_neg at hnall
          obtain ⟨d, hd, hdc⟩ := hnall
          rcases hcl p hp d hd with hdone | hkeys
          · exact absurd (contains_eq_true_iff.2 hdone) hdc
          · exact ⟨d, hd, hkeys⟩
        exact exists_cycle_of_stuck g hg pending hsub hemp hstuck
      · rw [if_neg hre] at herr
        have hready_pos : 0 < (pending.filter (nodeReady done)).length := by
          have : pending.filter (nodeReady done) ≠ [] := by
            intro hh
            rw [hh] at hre
            exact hre rfl
          exact List.length_pos.2 this
        have hsplit := (List.filter_append_perm (nodeReady done) pending).length_eq
        rw [List.length_append] at hsplit
        refine ih (pending.filter (fun p => !nodeReady done p)) _ e (by omega)
          (fun p hp => hsub p (List.mem_of_mem_filter hp)) ?_
          (keys_nodup_of_filter hnd _) herr
        -- closure invariant for the remaining subgraph
        intro p hp d hd
        have hpmem : p ∈ pending := List.mem_of_mem_filter hp
        rcases hcl p hpmem d hd with hdone | hkeys
        · exact Or.inl (List.mem_append_left _ hdone)
        · obtain ⟨q, hq, rfl⟩ := mem_graphKeys.1 hkeys
          by_cases hqr : nodeReady done q = true
          · exact Or.inl (List.mem_append_right _
              (List.mem_map_of_mem _ (List.mem_filter.2 ⟨hq, hqr⟩)))
          · refine Or.inr (mem_graphKeys.2 ⟨q, List.mem_filter.2 ⟨hq, ?_⟩, rfl⟩)
            simp [hqr]

/-- The only error `kahnGo` ever raises is `CycleError`. -/
theorem kahnGo_error_val :
    ∀ (fuel : Nat) (pending : Graph) (done : List String) (e : PyExn),
      kahnGo fuel pending done = .error e → e = .cycleError := by
  intro fuel
  induction fuel with
  | zero =>
    intro pending done e h
    simp only [kahnGo] at h
    split at h
    · cases h
    · injection h with h
      exact h.symm
  | succ n ih =>
    intro pending done e h
    simp only [kahnGo] at h
    split at h
    · cases h
    · split at h
      · injection h with h
        exact h.symm
      · exact ih _ _ e h

/-- Every node of a cycle has a `Step`-successor inside the cycle. -/
theorem cycle_succ (g : Graph) (c : List String) (hcyc : IsCycle g c) :
    ∀ x ∈ c, ∃ y ∈ c, Step g x y := by
  obtain ⟨hne, hch⟩ := hcyc
  intro x hx
  obtain ⟨i, hi⟩ := List.mem_iff_get.1 hx
  have hpos : 0 < c.length := List.length_pos.2 hne
  have hLlen : (c ++ c.take 1).length = c.length + 1 := by
    rw [List.length_append, List.length_take]
    omega
  have hchain := List.chain'_iff_get.1 hch
  have hstep := hchain i.val (by omega)
  have hgetl : (c ++ c.take 1).get ⟨i.val, by omega⟩ = x := by
    rw [List.get_eq_getElem, List.getElem_append_left i.isLt]
    rw [← hi, List.get_eq_getElem]
  refine ⟨(c ++ c.take 1).get ⟨i.val + 1, by omega⟩, ?_, ?_⟩
  · have hmem : (c ++ c.take 1).get ⟨i.val + 1, by omega⟩ ∈ c ++ c.take 1 :=
      List.get_mem _ _ _
    rcases List.mem_append.1 hmem with h | h
    · exact h
    · exact List.take_subset 1 c h
  · rw [← hgetl]
    exact hstep

theorem findIdx_eq_length_of_append (l₁ l₂ : List String) (b : String)
    (hb : b ∉ l₁) :
    (l₁ ++ b :: l₂).findIdx (fun w => w == b) = l₁.length := by
  induction l₁ with
  | nil => simp [List.findIdx_cons]
  | cons x xs ihx =>
    have hxb : (x == b) = false := by
      have hne : ¬ x = b := fun hh => hb (hh ▸ List.mem_cons_self x xs)
      simp [hne]
    simp only [List.cons_append, List.findIdx_cons, hxb, cond_false]
    rw [ihx (fun hh => hb (List.mem_cons_of_mem _ hh))]
    simp

theorem findIdx_lt_length_of_mem_left (l₁ l₂ : List String) (a : String)
    (ha : a ∈ l₁) :
    (l₁ ++ l₂).findIdx (fun w => w == a) < l₁.length := by
  induction l₁ with
  | nil => cases ha
  | cons x xs ihx =>
    by_cases hxa : x = a
    · simp [List.findIdx_cons, hxa]
    · have hxb : (x == a) = false := by simp [hxa]
      have ha' : a ∈ xs := by
        rcases List.mem_cons.1 ha with h | h
        · exact absurd h.symm hxa
        · exact h
      simp only [List.cons_append, List.findIdx_cons, hxb, cond_false, List.length_cons]
      exact Nat.succ_lt_succ (ihx ha')

theorem occursBefore_findIdx (l : List String) (a b : String) (hnd : l.Nodup)
    (h : OccursBefore l a b) :
    l.findIdx (fun w => w == a) < l.findIdx (fun w => w == b) := by
  obtain ⟨l₁, l₂, rfl, ha⟩ := h
  have hb : b ∉ l₁ := by
    intro hmem
    exact (List.disjoint_of_nodup_append hnd) hmem (List.mem_cons_self b l₂)
  rw [findIdx_eq_length_of_append l₁ l₂ b hb]
  exact findIdx_lt_length_of_mem_left l₁ _ a ha

/-- Specification of a successful `static_order`: a duplicate-free
permutation of the keys in which recorded predecessors precede their
node. -/
theorem topo_ok_spec (g : Graph) (out : List String)
    (hnd : (graphKeys g).Nodup)
    (hc : ∀ p ∈ g, ∀ d ∈ p.2, d ∈ graphKeys g)
    (hok : topo_static_order g = .ok out) :
    List.Perm out (graphKeys g) ∧ out.Nodup ∧
      ∀ p ∈ g, ∀ d ∈ p.2, OccursBefore out d p.1 := by
  obtain ⟨tail, htl, hperm, hbef⟩ := kahnGo_ok_spec g.length g [] out hnd
    (by simp) (fun p hp d hd => Or.inr (hc p hp d hd)) hok
  rw [List.nil_append] at htl
  subst htl
  exact ⟨hperm, hperm.nodup_iff.2 hnd, hbef⟩

/-- A cyclic graph makes `static_order` fail with `CycleError`. -/
theorem topo_cycle_error (g : Graph)
    (hnd : (graphKeys g).Nodup)
    (hc : ∀ p ∈ g, ∀ d ∈ p.2, d ∈ graphKeys g)
    (c : List String) (hcyc : IsCycle g c) :
    topo_static_order g = .error .cycleError := by
  cases hres : topo_static_order g with
  | error e =>
    have he : e = .cycleError := kahnGo_error_val _ _ _ e hres
    rw [he]
  | ok out =>
    exfalso
    obtain ⟨hperm, hnodup, hbef⟩ := topo_ok_spec g out hnd hc hres
    -- every cycle node has a successor in the cycle
    have hsucc := cycle_succ g c hcyc
    obtain ⟨hcne, _⟩ := hcyc
    -- a cycle node of minimal position in `out`
    obtain ⟨x, hxc, hxmin⟩ := Finset.exists_min_image c.toFinset
      (fun z => out.findIdx (fun w => w == z)) (by
        obtain ⟨z, hz⟩ := List.exists_mem_of_ne_nil c hcne
        exact ⟨z, List.mem_toFinset.2 hz⟩)
    obtain ⟨y, hyc, hstep⟩ := hsucc x (List.mem_toFinset.1 hxc)
    obtain ⟨p, hpg, hpx, hyp⟩ := step_dest hstep
    have hbefyx : OccursBefore out y x := hpx ▸ hbef p hpg y hyp
    have hlt := occursBefore_findIdx out y x hnodup hbefyx
    have hge := hxmin y (List.mem_toFinset.2 hyc)
    omega

/-! ## sort_pkgs_by_closures -/

theorem foldl_setKey_of_nodup {A : Type} :
    ∀ (l m : List (String × A)), (m.map Prod.fst ++ l.map Prod.fst).Nodup →
      l.foldl (fun m p => setKey m p.1 p.2) m = m ++ l := by
  intro l
  induction l with
  | nil => intro m _; simp
  | cons p t ihp =>
    intro m hnd
    have hpm : p.1 ∉ m.map Prod.fst := by
      have hd := List.disjoint_of_nodup_append hnd
      intro hmem
      exact hd hmem (by simp)
    have hany : m.any (fun q => q.1 == p.1) = false := by
      by_contra hh
      have hT : m.any (fun q => q.1 == p.1) = true := by
        cases h' : m.any (fun q => q.1 == p.1)
        · exact absurd h' hh
        · rfl
      obtain ⟨q, hq, hqe⟩ := any_key_iff.1 hT
      exact hpm (hqe ▸ List.mem_map_of_mem Prod.fst hq)
    simp only [List.foldl_cons]
    rw [show setKey m p.1 p.2 = m ++ [p] by simp [setKey, hany]]
    rw [ihp (m ++ [p]) (by simpa [List.append_assoc] using hnd)]
    simp

theorem dictOfList_eq_self {A : Type} (l : List (String × A))
    (h : (l.map Prod.fst).Nodup) : dictOfList l = l := by
  have := foldl_setKey_of_nodup l [] (by simpa using h)
  simpa [dictOfList] using this

theorem jobClosures_eq (jobs : List NixEvalJobsOutput)
    (hnd : (jobs.map (fun j => j.drvPath)).Nodup) :
    jobClosures jobs = jobs.map (fun k =>
      (k.drvPath, restrictedPreds (jobs.map (fun j => j.drvPath)) k)) := by
  apply dictOfList_eq_self
  rw [List.map_map]
  simpa [Function.comp] using hnd

theorem jobClosures_keys (jobs : List NixEvalJobsOutput)
    (hnd : (jobs.map (fun j => j.drvPath)).Nodup) :
    graphKeys (jobClosures jobs) = jobs.map (fun j => j.drvPath) := by
  rw [jobClosures_eq jobs hnd]
  unfold graphKeys
  rw [List.map_map]
  rfl

theorem restrictedPreds_subset {jobSet : List String} {k : NixEvalJobsOutput} :
    ∀ d ∈ restrictedPreds jobSet k, d ∈ jobSet ∧ d ≠ k.drvPath := by
  intro d hd
  unfold restrictedPreds at hd
  have hd' := List.mem_dedup.1 hd
  have hp := List.of_mem_filter hd'
  simp only [Bool.and_eq_true, bne_iff_ne, ne_eq] at hp
  exact ⟨contains_eq_true_iff.1 hp.1, hp.2⟩

theorem jobClosures_closed (jobs : List NixEvalJobsOutput)
    (hnd : (jobs.map (fun j => j.drvPath)).Nodup) :
    ∀ p ∈ jobClosures jobs, ∀ d ∈ p.2, d ∈ graphKeys (jobClosures jobs) := by
  intro p hp d hd
  rw [jobClosures_eq jobs hnd] at hp
  obtain ⟨k, _, rfl⟩ := List.mem_map.1 hp
  rw [jobClosures_keys jobs hnd]
  exact (restrictedPreds_subset d hd).1

theorem find?_map_drv (jobs : List NixEvalJobsOutput) :
    ∀ item ∈ jobs.map (fun j => j.drvPath),
      ∃ j ∈ jobs, j.drvPath = item ∧
        (jobs.map (fun j => (j.drvPath, j))).find? (fun p => p.1 == item) =
          some (item, j) := by
  intro item hit
  induction jobs with
  | nil => simp at hit
  | cons j t ihj =>
    by_cases hj : j.drvPath = item
    · refine ⟨j, by simp, hj, ?_⟩
      rw [List.map_cons, List.find?_cons_of_pos _ (by simpa using hj)]
      rw [hj]
    · have hit' : item ∈ t.map (fun j => j.drvPath) := by
        rw [List.map_cons] at hit
        rcases List.mem_cons.1 hit with h | h
        · exact absurd h.symm hj
        · exact h
      obtain ⟨j', hj', hje, hfind⟩ := ihj hit'
      refine ⟨j', List.mem_cons_of_mem _ hj', hje, ?_⟩
      rw [List.map_cons, List.find?_cons_of_neg _ (by simpa using hj), hfind]

theorem jobByDrv_eq (jobs : List NixEvalJobsOutput)
    (hnd : (jobs.map (fun j => j.drvPath)).Nodup) :
    jobByDrv jobs = jobs.map (fun j => (j.drvPath, j)) := by
  apply dictOfList_eq_self
  rw [List.map_map]
  simpa [Function.comp] using hnd

/-- The looked-up job list reproduces the order and stays inside `jobs`. -/
theorem sort_ok_dest (jobs : List NixEvalJobsOutput)
    (hnd : (jobs.map (fun j => j.drvPath)).Nodup) :
    ∀ (order : List String), (∀ x ∈ order, x ∈ jobs.map (fun j => j.drvPath)) →
      ((order.filterMap (fun item =>
          ((jobByDrv jobs).find? (fun p => p.1 == item)).map (fun p => p.2))).map
            (fun j => j.drvPath) = order ∧
        ∀ x ∈ order.filterMap (fun item =>
          ((jobByDrv jobs).find? (fun p => p.1 == item)).map (fun p => p.2)),
            x ∈ jobs) := by
  intro order
  induction order with
  | nil => intro _; simp
  | cons item rest ihr =>
    intro horder
    obtain ⟨j, hjm, hje, hfind⟩ := find?_map_drv jobs item (horder item (by simp))
    have hjb : (jobByDrv jobs).find? (fun p => p.1 == item) = some (item, j) := by
      rw [jobByDrv_eq jobs hnd]
      exact hfind
    obtain ⟨ihmap, ihsub⟩ := ihr (fun x hx => horder x (List.mem_cons_of_mem _ hx))
    have hstep : (item :: rest).filterMap (fun item =>
        ((jobByDrv jobs).find? (fun p => p.1 == item)).map (fun p => p.2)) =
        j :: rest.filterMap (fun item =>
          ((jobByDrv jobs).find? (fun p => p.1 == item)).map (fun p => p.2)) := by
      rw [List.filterMap_cons, hjb]
      rfl
    rw [hstep]
    constructor
    · rw [List.map_cons, ihmap, hje]
    · intro x hx
      rcases List.mem_cons.1 hx with rfl | hx'
      · exact hjm
      · exact ihsub x hx'

/-- Successful sorting yields pairwise-distinct identifiers and a sublist of
the input batch. -/
theorem sort_ok_inv (jobs : List NixEvalJobsOutput)
    (hnd : (jobs.map (fun j => j.drvPath)).Nodup)
    (sorted : List NixEvalJobsOutput)
    (h : sort_pkgs_by_closures jobs = .ok sorted) :
    (sorted.map (fun j => j.drvPath)).Nodup ∧ ∀ x ∈ sorted, x ∈ jobs := by
  unfold sort_pkgs_by_closures at h
  cases hres : topo_static_order (jobClosures jobs) with
  | error e => rw [hres] at h; cases h
  | ok order =>
    rw [hres] at h
    injection h with h
    subst h
    obtain ⟨hperm, hnodup, _⟩ := topo_ok_spec _ order
      (by rw [jobClosures_keys jobs hnd]; exact hnd)
      (jobClosures_closed jobs hnd) hres
    have horder : ∀ x ∈ order, x ∈ jobs.map (fun j => j.drvPath) := by
      intro x hx
      have := hperm.mem_iff.1 hx
      rwa [jobClosures_keys jobs hnd] at this
    obtain ⟨hmap, hsub⟩ := sort_ok_dest jobs hnd order horder
    refine ⟨?_, hsub⟩
    rw [hmap]
    exact hnodup

/-- Helper for concrete acyclicity: a graph whose `static_order` succeeds has
no cycle. -/
theorem no_cycle_of_topo_ok (g : Graph) (hnd : (graphKeys g).Nodup)
    (hc : ∀ p ∈ g, ∀ d ∈ p.2, d ∈ graphKeys g)
    (out : List String) (hok : topo_static_order g = .ok out) :
    ∀ c, ¬ IsCycle g c := by
  intro c hcyc
  rw [topo_cycle_error g hnd hc c hcyc] at hok
  cases hok

/-! ## Claim C1: topological ordering of acyclic batches -/

/-- C1: for every batch of parsed build units with pairwise-distinct
`drvPath`s whose restricted dependency graph (union of `neededBuilds` and
`neededSubstitutes`, intersected with the batch's `drvPath`s, self removed)
is acyclic, `sort_pkgs_by_closures` succeeds and returns a permutation of
the batch in which every unit occurs strictly after each of its in-batch
predecessors. -/
theorem c1_sort_topological (jobs : List NixEvalJobsOutput)
    (hnd : (jobs.map (fun j => j.drvPath)).Nodup)
    (hacyc : ∀ c, ¬ IsCycle (jobClosures jobs) c) :
    ∃ sorted, sort_pkgs_by_closures jobs = .ok sorted ∧
      List.Perm sorted jobs ∧
      ∀ j ∈ jobs, ∀ d ∈ restrictedPreds (jobs.map (fun j => j.drvPath)) j,
        OccursBefore (sorted.map (fun j => j.drvPath)) d j.drvPath := by
  have hkeys := jobClosures_keys jobs hnd
  have hknd : (graphKeys (jobClosures jobs)).Nodup := by rw [hkeys]; exact hnd
  have hclosed := jobClosures_closed jobs hnd
  cases hres : topo_static_order (jobClosures jobs) with
  | error e =>
    exfalso
    obtain ⟨c, hc⟩ := kahnGo_error_cycle (jobClosures jobs) hknd
      (jobClosures jobs).length (jobClosures jobs) [] e (Nat.le_refl _)
      (fun p hp => hp)
      (fun p hp d hd => Or.inr (hclosed p hp d hd)) hknd hres
    exact hacyc c hc
  | ok order =>
    obtain ⟨hperm, hnodup, hbef⟩ := topo_ok_spec _ order hknd hclosed hres
    have horder : ∀ x ∈ order, x ∈ jobs.map (fun j => j.drvPath) := by
      intro x hx
      have := hperm.mem_iff.1 hx
      rwa [hkeys] at this
    obtain ⟨hmap, hsub⟩ := sort_ok_dest jobs hnd order horder
    refine ⟨order.filterMap (fun item =>
        ((jobByDrv jobs).find? (fun p => p.1 == item)).map (fun p => p.2)),
      by simp [sort_pkgs_by_closures, hres], ?_, ?_⟩
    · have hsnd : (order.filterMap (fun item =>
          ((jobByDrv jobs).find? (fun p => p.1 == item)).map (fun p => p.2))).Nodup := by
        apply List.Nodup.of_map (fun j => j.drvPath)
        rw [hmap]
        exact hnodup
      have hlen : jobs.length ≤ (order.filterMap (fun item =>
          ((jobByDrv jobs).find? (fun p => p.1 == item)).map (fun p => p.2))).length := by
        have h1 : (order.filterMap (fun item =>
            ((jobByDrv jobs).find? (fun p => p.1 == item)).map (fun p => p.2))).length
            = order.length := by
          conv_rhs => rw [← hmap]
          rw [List.length_map]
        have h2 : order.length = jobs.length := by
          have := hperm.length_eq
          rw [hkeys, List.length_map] at this
          exact this
        omega
      exact (hsnd.subperm hsub).perm_of_length_le hlen
    · intro j hj d hd
      have hent : (j.drvPath, restrictedPreds (jobs.map (fun j => j.drvPath)) j) ∈
          jobClosures jobs := by
        rw [jobClosures_eq jobs hnd]
        exact List.mem_map_of_mem _ hj
      have hb := hbef _ hent d hd
      rw [hmap]
      exact hb

/-- Witness for C1: a two-unit batch given in reversed dependency order is
sorted with the dependency occurring first. -/
theorem c1_sort_topological_witness :
    ∃ sorted,
      sort_pkgs_by_closures
        ([⟨"packages.x86_64-linux.b", [], "notBuilt", "/nix/store/b.drv", "b",
            "x86_64-linux", ["/nix/store/a.drv"], [], [], none⟩,
          ⟨"packages.x86_64-linux.a", [], "notBuilt", "/nix/store/a.drv", "a",
            "x86_64-linux", [], [], [], none⟩] : List NixEvalJobsOutput) =
        .ok sorted ∧
      OccursBefore (sorted.map (fun j => j.drvPath))
        "/nix/store/a.drv" "/nix/store/b.drv" := by
  obtain ⟨sorted, hok, _, hbef⟩ := c1_sort_topological
    ([⟨"packages.x86_64-linux.b", [], "notBuilt", "/nix/store/b.drv", "b",
        "x86_64-linux", ["/nix/store/a.drv"], [], [], none⟩,
      ⟨"packages.x86_64-linux.a", [], "notBuilt", "/nix/store/a.drv", "a",
        "x86_64-linux", [], [], [], none⟩] : List NixEvalJobsOutput)
    (by decide)
    (no_cycle_of_topo_ok _ (by decide) (by decide)
      ["/nix/store/a.drv", "/nix/store/b.drv"] rfl)
  refine ⟨sorted, hok, ?_⟩
  have hb := hbef
    ⟨"packages.x86_64-linux.b", [], "notBuilt", "/nix/store/b.drv", "b",
      "x86_64-linux", ["/nix/store/a.drv"], [], [], none⟩
    (by decide) "/nix/store/a.drv" (by decide)
  exact hb

/-! ## Claim C2: cyclic batches abort the run -/

/-- C2: when the restricted dependency graph of the parsed batch contains a
cycle, `sort_pkgs_by_closures` raises `CycleError` and the whole run aborts
with that exception: no partially ordered unit list, no reports, no notice
and no outputs are produced. -/
theorem c2_cycle_fatal (stdoutLines : List EvalLine) (stderrLines : List String)
    (c : List String)
    (hc : IsCycle (jobClosures (parseStdout stdoutLines).1) c) :
    sort_pkgs_by_closures (parseStdout stdoutLines).1 = .error .cycleError ∧
    mainRun stdoutLines stderrLines = .error .cycleError := by
  have hnd := parseStdout_nodup stdoutLines
  have htopo := topo_cycle_error (jobClosures (parseStdout stdoutLines).1)
    (by rw [jobClosures_keys _ hnd]; exact hnd)
    (jobClosures_closed _ hnd) c hc
  have hsort : sort_pkgs_by_closures (parseStdout stdoutLines).1 =
      .error .cycleError := by
    simp [sort_pkgs_by_closures, htopo]
  exact ⟨hsort, by simp [mainRun, hsort]⟩

/-- Witness for C2: two units whose restricted closures form a two-cycle. -/
theorem c2_cycle_fatal_witness :
    sort_pkgs_by_closures
      (parseStdout
        [.record ⟨"packages.x86_64-linux.a", [], "notBuilt", "/nix/store/a.drv",
            "a", "x86_64-linux", ["/nix/store/b.drv"], [], [], none⟩,
         .record ⟨"packages.x86_64-linux.b", [], "notBuilt", "/nix/store/b.drv",
            "b", "x86_64-linux", ["/nix/store/a.drv"], [], [], none⟩]).1 =
      .error .cycleError ∧
    mainRun
      [.record ⟨"packages.x86_64-linux.a", [], "notBuilt", "/nix/store/a.drv",
          "a", "x86_64-linux", ["/nix/store/b.drv"], [], [], none⟩,
       .record ⟨"packages.x86_64-linux.b", [], "notBuilt", "/nix/store/b.drv",
          "b", "x86_64-linux", ["/nix/store/a.drv"], [], [], none⟩] [] =
      .error .cycleError :=
  c2_cycle_fatal _ [] ["/nix/store/a.drv", "/nix/store/b.drv"] (by decide)

/-! ## Claim C4: deduplication by drvPath -/

/-- C4: parsing a line stream with a shared seen-set yields a unit list
with pairwise-distinct `drvPath`s (and the sorted list inherits this); a
unit line whose `drvPath` is already seen yields `Ok(None)` with the set
unchanged, a fresh unexcluded unit line is emitted with its `drvPath`
recorded, and re-parsing a line that just emitted a unit is a no-op. -/
theorem c4_deduplication :
    (∀ lines : List EvalLine,
      ((parseStdout lines).1.map (fun r => r.drvPath)).Nodup ∧
      ∀ sorted, sort_pkgs_by_closures (parseStdout lines).1 = .ok sorted →
        (sorted.map (fun r => r.drvPath)).Nodup)
    ∧ (∀ (data : NixEvalJobsOutput) (seen : List String), data.error = none →
        seen.contains data.drvPath = true →
        parse_nix_eval_line (.record data) seen = (.ok none, seen))
    ∧ (∀ (data : NixEvalJobsOutput) (seen : List String), data.error = none →
        seen.contains data.drvPath = false →
        (data.requiredSystemFeatures.contains "nixos-test" &&
          data.system == "x86_64-linux") = false →
        parse_nix_eval_line (.record data) seen =
          (.ok (some data), seen ++ [data.drvPath]))
    ∧ (∀ (line : EvalLine) (seen seen' : List String) (r : NixEvalJobsOutput),
        parse_nix_eval_line line seen = (.ok (some r), seen') →
        parse_nix_eval_line line seen' = (.ok none, seen')) := by
  refine ⟨?_, ?_, ?_, ?_⟩
  · intro lines
    refine ⟨parseStdout_nodup lines, ?_⟩
    intro sorted hs
    exact (sort_ok_inv _ (parseStdout_nodup lines) sorted hs).1
  · intro data seen herr hc
    have hmem : data.drvPath ∈ seen := contains_eq_true_iff.1 hc
    simp [parse_nix_eval_line, herr, hmem]
  · intro data seen herr hc hex
    have hmem : data.drvPath ∉ seen := contains_eq_false_iff.1 hc
    have hex' : ¬("nixos-test" ∈ data.requiredSystemFeatures ∧
        data.system = "x86_64-linux") := by
      intro ⟨h1, h2⟩
      rw [contains_eq_true_iff.2 h1] at hex
      simp [h2] at hex
    simp [parse_nix_eval_line, herr, hmem, hex']
  · intro line seen seen' r hp
    rcases parse_line_cases line seen with ⟨e, hq⟩ | hq | ⟨d, hl, herr, _, hq⟩
    · rw [hp] at hq; cases hq
    · rw [hp] at hq
      injection hq with hq
      cases hq
    · rw [hp] at hq
      injection hq with hq1 hq2
      injection hq1 with hq1
      injection hq1 with hq1
      subst hl
      subst hq1
      have hmem : r.drvPath ∈ seen' := by
        rw [hq2]
        exact List.mem_append_right _ (by simp)
      simp [parse_nix_eval_line, herr, hmem]

/-- Witness for C4 on a concrete stream: the same unit line twice yields one
unit, and the direct re-parse equations hold. -/
theorem c4_deduplication_witness :
    ((parseStdout
      [.record ⟨"packages.x86_64-linux.a", [], "notBuilt", "/nix/store/a.drv",
          "a", "x86_64-linux", [], [], [], none⟩,
       .record ⟨"packages.x86_64-linux.a", [], "notBuilt", "/nix/store/a.drv",
          "a", "x86_64-linux", [], [], [], none⟩]).1.map
        (fun r => r.drvPath)).Nodup
    ∧ parse_nix_eval_line
        (.record ⟨"packages.x86_64-linux.a", [], "notBuilt", "/nix/store/a.drv",
          "a", "x86_64-linux", [], [], [], none⟩) ["/nix/store/a.drv"] =
        (.ok none, ["/nix/store/a.drv"])
    ∧ parse_nix_eval_line
        (.record ⟨"packages.x86_64-linux.a", [], "notBuilt", "/nix/store/a.drv",
          "a", "x86_64-linux", [], [], [], none⟩) [] =
        (.ok (some ⟨"packages.x86_64-linux.a", [], "notBuilt", "/nix/store/a.drv",
          "a", "x86_64-linux", [], [], [], none⟩), ["/nix/store/a.drv"]) :=
  ⟨(c4_deduplication.1 _).1,
   c4_deduplication.2.1 _ _ rfl (by decide),
   c4_deduplication.2.2.1 _ _ rfl (by decide) (by decide)⟩

/-! ## main: outcome destructuring and diagnostics -/

/-- Destructuring a successful run: sorting and grouping succeeded and the
outcome fields are the ones computed by `main`. -/
theorem mainRun_ok_dest (L : List EvalLine) (E : List String) (out : RunOutcome)
    (h : mainRun L E = .ok out) :
    ∃ sorted groups,
      sort_pkgs_by_closures (parseStdout L).1 = .ok sorted ∧
      sorted.foldlM processPkg (([], []) : Groups × Groups) = .ok groups ∧
      out = ⟨formatWarningReports (run_warning_filter E),
             formatErrorReports (parseStdout L).2,
             (parseStdout L).2.isEmpty,
             if (parseStdout L).2.isEmpty then
               [("packages_matrix", assembleMatrix "no packages to build" groups.1),
                ("checks_matrix", assembleMatrix "no checks to build" groups.2)]
             else [],
             if (parseStdout L).2.isEmpty then 0 else 1⟩ := by
  simp only [mainRun] at h
  cases hs : sort_pkgs_by_closures (parseStdout L).1 with
  | error e => simp only [hs] at h; cases h
  | ok sorted =>
    simp only [hs] at h
    cases hf : sorted.foldlM processPkg (([], []) : Groups × Groups) with
    | error e => simp only [hf] at h; cases h
    | ok groups =>
      simp only [hf] at h
      injection h with h
      exact ⟨sorted, groups, rfl, hf, h.symm⟩

theorem map_fst_update {A : Type} (m : List (String × List A)) (k : String) (v : A) :
    (m.map (fun p => if p.1 == k then (p.1, p.2 ++ [v]) else p)).map Prod.fst =
      m.map Prod.fst := by
  rw [List.map_map]
  apply List.map_congr_left
  intro p _
  by_cases hp : p.1 = k <;> simp [hp]

theorem addToGroup_keys {A : Type} (m : List (String × List A)) (k : String) (v : A) :
    (addToGroup m k v).map Prod.fst =
      if m.any (fun p => p.1 == k) = true then m.map Prod.fst
      else m.map Prod.fst ++ [k] := by
  unfold addToGroup
  split
  · exact map_fst_update m k v
  · simp

/-- Error grouping: the group keys are exactly the distinct messages. -/
theorem foldl_groupErrors_keys :
    ∀ (errs : List NixEvalError) (acc : List (String × List String)),
      ((acc.map Prod.fst).Nodup →
        ((errs.foldl (fun m e => addToGroup m e.error e.attr) acc).map Prod.fst).Nodup) ∧
      ∀ m, m ∈ (errs.foldl (fun m e => addToGroup m e.error e.attr) acc).map Prod.fst ↔
        m ∈ acc.map Prod.fst ∨ m ∈ errs.map (fun e => e.error) := by
  intro errs
  induction errs with
  | nil => intro acc; simp
  | cons e t ihe =>
    intro acc
    simp only [List.foldl_cons]
    obtain ⟨ih1, ih2⟩ := ihe (addToGroup acc e.error e.attr)
    have hkeys := addToGroup_keys acc e.error e.attr
    by_cases hany : acc.any (fun p => p.1 == e.error) = true
    · rw [if_pos hany] at hkeys
      have he : e.error ∈ acc.map Prod.fst := by
        obtain ⟨p, hp, hpe⟩ := any_key_iff.1 hany
        exact hpe ▸ List.mem_map_of_mem Prod.fst hp
      constructor
      · intro hnd
        apply ih1
        rw [hkeys]
        exact hnd
      · intro m
        rw [ih2 m, hkeys]
        simp only [List.map_cons, List.mem_cons]
        constructor
        · rintro (h | h)
          · exact Or.inl h
          · exact Or.inr (Or.inr h)
        · rintro (h | h | h)
          · exact Or.inl h
          · exact Or.inl (h ▸ he)
          · exact Or.inr h
    · rw [if_neg hany] at hkeys
      have hnm : e.error ∉ acc.map Prod.fst := by
        intro hmem
        obtain ⟨p, hp, hpe⟩ := List.mem_map.1 hmem
        exact hany (any_key_iff.2 ⟨p, hp, hpe⟩)
      constructor
      · intro hnd
        apply ih1
        rw [hkeys]
        refine List.Nodup.append hnd (List.nodup_singleton _) ?_
        intro a ha hb
        rw [List.mem_singleton] at hb
        subst hb
        exact hnm ha
      · intro m
        rw [ih2 m, hkeys]
        simp only [List.map_cons, List.mem_cons, List.mem_append, List.mem_singleton]
        tauto

/-! ## Claim C3: run outcome driven by EvalErrors -/

/-- C3: for every run that completes the pipeline, at least one collected
EvalError means exit status 1 with all grouped error reports emitted (one
per distinct message) and neither matrix notice nor named outputs; zero
EvalErrors means the notice and both named outputs are emitted with exit
status 0, regardless of warnings. -/
theorem c3_exit_status (L : List EvalLine) (E : List String) (out : RunOutcome)
    (h : mainRun L E = .ok out) :
    ((parseStdout L).2 ≠ [] →
      out.exitCode = 1 ∧ out.noticeEmitted = false ∧ out.outputs = [] ∧
      out.errorReports ≠ [])
    ∧ ((parseStdout L).2 = [] →
      out.exitCode = 0 ∧ out.noticeEmitted = true ∧
      ∃ pm cm, out.outputs = [("packages_matrix", pm), ("checks_matrix", cm)])
    ∧ out.errorReports = (groupErrors (parseStdout L).2).map
        (fun p => formatErrorReport p.1 p.2)
    ∧ ((groupErrors (parseStdout L).2).map Prod.fst).Nodup
    ∧ (∀ m, m ∈ (groupErrors (parseStdout L).2).map Prod.fst ↔
        m ∈ (parseStdout L).2.map (fun e => e.error)) := by
  obtain ⟨sorted, groups, hs, hf, hout⟩ := mainRun_ok_dest L E out h
  subst hout
  refine ⟨?_, ?_, rfl, ?_, ?_⟩
  · intro hne
    have hemp : (parseStdout L).2.isEmpty = false := by
      simpa [List.isEmpty_iff] using hne
    refine ⟨by simp [hemp], by simp [hemp], by simp [hemp], ?_⟩
    obtain ⟨e0, t0, he0⟩ := List.exists_cons_of_ne_nil hne
    have hm : e0.error ∈ (groupErrors (parseStdout L).2).map Prod.fst := by
      unfold groupErrors
      rw [(foldl_groupErrors_keys (parseStdout L).2 []).2 e0.error]
      rw [he0]
      simp
    intro hnil
    simp only [RunOutcome.errorReports] at hnil
    unfold formatErrorReports at hnil
    rw [List.map_eq_nil_iff] at hnil
    rw [hnil] at hm
    cases hm
  · intro hemp'
    have hemp : (parseStdout L).2.isEmpty = true := by simp [hemp']
    exact ⟨by simp [hemp], by simp [hemp],
      assembleMatrix "no packages to build" groups.1,
      assembleMatrix "no checks to build" groups.2, by simp [hemp]⟩
  · unfold groupErrors
    exact (foldl_groupErrors_keys (parseStdout L).2 []).1 (by simp)
  · intro m
    unfold groupErrors
    have := (foldl_groupErrors_keys (parseStdout L).2 []).2 m
    simpa using this

/-- Witness for C3: a run with one evaluation error exits 1 without
outputs, a clean run exits 0 with both named outputs. -/
theorem c3_exit_status_witness :
    (∀ out, mainRun [.record ⟨"pkg.bad", [], "notBuilt", "/nix/store/bad.drv",
        "bad", "x86_64-linux", [], [], [], some "error: boom"⟩] [] = .ok out →
      out.exitCode = 1 ∧ out.noticeEmitted = false ∧ out.outputs = [])
    ∧ ∀ out, mainRun [] [] = .ok out →
      out.exitCode = 0 ∧ out.noticeEmitted = true ∧
        ∃ pm cm, out.outputs = [("packages_matrix", pm), ("checks_matrix", cm)] := by
  constructor
  · intro out hout
    have hne : (parseStdout [.record ⟨"pkg.bad", [], "notBuilt", "/nix/store/bad.drv",
        "bad", "x86_64-linux", [], [], [], some "error: boom"⟩]).2 ≠ [] := by decide
    obtain ⟨h1, h2, h3, _⟩ := (c3_exit_status _ [] out hout).1 hne
    exact ⟨h1, h2, h3⟩
  · intro out hout
    exact (c3_exit_status [] [] out hout).2.1 (by decide)

/-! ## Grouping loop invariants -/

/-- Entries of `addToGroup` stem from the old entries or from the new
element. -/
theorem addToGroup_entries {A : Type} {m : List (String × List A)} {k : String}
    {v : A} {q : String × List A} (hq : q ∈ addToGroup m k v) :
    q.2 ≠ [] →
      ∀ e ∈ q.2, (∃ l, (q.1, l) ∈ m ∧ e ∈ l) ∨ (e = v ∧ q.1 = k) := by
  unfold addToGroup at hq
  split at hq
  · obtain ⟨p, hp, hpe⟩ := List.mem_map.1 hq
    by_cases hpk : p.1 = k
    · rw [if_pos (by simpa using hpk)] at hpe
      intro _ e he
      rw [← hpe] at he
      simp only at he
      rcases List.mem_append.1 he with he' | he'
      · exact Or.inl ⟨p.2, by rw [← hpe]; exact ⟨(by simpa using hp : (p.1, p.2) ∈ m), he'⟩⟩
      · rw [List.mem_singleton] at he'
        exact Or.inr ⟨he', by rw [← hpe]; exact hpk⟩
    · rw [if_neg (by simpa using hpk)] at hpe
      intro _ e he
      subst hpe
      exact Or.inl ⟨p.2, by simpa using hp, he⟩
  · rcases List.mem_append.1 hq with hq' | hq'
    · intro _ e he
      exact Or.inl ⟨q.2, by simpa using hq', he⟩
    · rw [List.mem_singleton] at hq'
      subst hq'
      intro _ e he
      rw [List.mem_singleton] at he
      exact Or.inr ⟨he, rfl⟩

/-- `addToGroup` keeps lists nonempty. -/
theorem addToGroup_ne_nil {A : Type} {m : List (String × List A)} {k : String}
    {v : A} (hm : ∀ q ∈ m, q.2 ≠ []) :
    ∀ q ∈ addToGroup m k v, q.2 ≠ [] := by
  intro q hq
  unfold addToGroup at hq
  split at hq
  · obtain ⟨p, hp, hpe⟩ := List.mem_map.1 hq
    by_cases hpk : p.1 = k
    · rw [if_pos (by simpa using hpk)] at hpe
      rw [← hpe]
      simp
    · rw [if_neg (by simpa using hpk)] at hpe
      rw [← hpe]
      exact hm p hp
  · rcases List.mem_append.1 hq with hq' | hq'
    · exact hm q hq'
    · rw [List.mem_singleton] at hq'
      subst hq'
      simp

/-- `GroupsFrom` is preserved by adding a classified not-yet-built unit. -/
theorem groupsFrom_addToGroup {src : List NixEvalJobsOutput} {pre : String}
    {g : Groups} (hg : GroupsFrom src pre g) {pkg : NixEvalJobsOutput}
    (hpkg : pkg ∈ src) (hcs : pkg.cacheStatus = "notBuilt")
    (hpre : pyStartsWith pkg.attr pre = true) {e : GitHubActionPackage}
    (hce : clean_package_for_output pkg = .ok e) :
    GroupsFrom src pre (addToGroup g pkg.system e) := by
  intro q hq
  have hne := addToGroup_ne_nil (fun p hp => (hg p hp).1) q hq
  refine ⟨hne, ?_⟩
  intro x hx
  rcases addToGroup_entries hq hne x hx with ⟨l, hl, hxl⟩ | ⟨rfl, hsys⟩
  · exact (hg (q.1, l) hl).2 x hxl
  · exact ⟨pkg, hpkg, hcs, hsys.symm, hpre, hce⟩

/-- A `GroupsFrom` invariant can weaken its source list. -/
theorem groupsFrom_mono {src src' : List NixEvalJobsOutput} {pre : String}
    {g : Groups} (hsub : ∀ x ∈ src, x ∈ src') (hg : GroupsFrom src pre g) :
    GroupsFrom src' pre g := by
  intro q hq
  obtain ⟨h1, h2⟩ := hg q hq
  refine ⟨h1, ?_⟩
  intro e he
  obtain ⟨pkg, hm, hrest⟩ := h2 e he
  exact ⟨pkg, hsub pkg hm, hrest⟩

/-- One grouping step preserves the origin invariant. -/
theorem processPkg_preserves {st st' : Groups × Groups}
    {pkg : NixEvalJobsOutput} {src : List NixEvalJobsOutput}
    (hmem : pkg ∈ src) (hp : processPkg st pkg = .ok st')
    (h1 : GroupsFrom src "packages." st.1)
    (h2 : GroupsFrom src "checks." st.2) :
    GroupsFrom src "packages." st'.1 ∧ GroupsFrom src "checks." st'.2 := by
  unfold processPkg at hp
  by_cases hcs : pkg.cacheStatus = "notBuilt"
  · simp only [hcs, beq_self_eq_true, if_true] at hp
    cases hclean : clean_package_for_output pkg with
    | error e => simp only [hclean] at hp; cases hp
    | ok c =>
      simp only [hclean] at hp
      by_cases hch : pyStartsWith pkg.attr "checks." = true
      · rw [if_pos hch] at hp
        injection hp with hp
        subst hp
        exact ⟨h1, groupsFrom_addToGroup h2 hmem hcs hch hclean⟩
      · rw [if_neg hch] at hp
        by_cases hpk : pyStartsWith pkg.attr "packages." = true
        · rw [if_pos hpk] at hp
          injection hp with hp
          subst hp
          exact ⟨groupsFrom_addToGroup h1 hmem hcs hpk hclean, h2⟩
        · rw [if_neg hpk] at hp
          injection hp with hp
          subst hp
          exact ⟨h1, h2⟩
  · have hcsb : (pkg.cacheStatus == "notBuilt") = false := by
      simpa using hcs
    rw [hcsb] at hp
    simp only [Bool.false_eq_true, if_false] at hp
    injection hp with hp
    subst hp
    exact ⟨h1, h2⟩

/-- The grouping loop only ever adds classified not-yet-built units of the
source batch, routed by the `attr` prefix. -/
theorem foldlM_processPkg_inv :
    ∀ (pkgs : List NixEvalJobsOutput) (st out : Groups × Groups)
      (src : List NixEvalJobsOutput),
      pkgs.foldlM processPkg st = .ok out →
      (∀ x ∈ pkgs, x ∈ src) →
      GroupsFrom src "packages." st.1 → GroupsFrom src "checks." st.2 →
      GroupsFrom src "packages." out.1 ∧ GroupsFrom src "checks." out.2 := by
  intro pkgs
  induction pkgs with
  | nil =>
    intro st out src h _ h1 h2
    simp only [List.foldlM_nil] at h
    injection h with h
    subst h
    exact ⟨h1, h2⟩
  | cons pkg t iht =>
    intro st out src h hsub h1 h2
    rw [List.foldlM_cons] at h
    cases hp : processPkg st pkg with
    | error e =>
      rw [hp] at h
      simp [Bind.bind, Except.bind] at h
    | ok st' =>
      rw [hp] at h
      simp only [Bind.bind, Except.bind] at h
      obtain ⟨h1', h2'⟩ := processPkg_preserves (hsub pkg (by simp)) hp h1 h2
      exact iht st' out src h (fun x hx => hsub x (List.mem_cons_of_mem _ hx)) h1' h2'

/-! ## Claim C5: only not-yet-built units become matrix entries -/

/-- C5: every entry of either grouping produced by the matrix loop stems
from a unit of the batch with `cacheStatus = "notBuilt"` (cached or local
units never contribute entries; they are ordering inputs only). -/
theorem c5_matrix_entries_only_notBuilt (pkgs : List NixEvalJobsOutput)
    (out : Groups × Groups)
    (h : pkgs.foldlM processPkg (([], []) : Groups × Groups) = .ok out) :
    GroupsFrom pkgs "packages." out.1 ∧ GroupsFrom pkgs "checks." out.2 :=
  foldlM_processPkg_inv pkgs ([], []) out pkgs h (fun _ hx => hx)
    (fun q hq => by cases hq) (fun q hq => by cases hq)

/-- Witness for C5: a batch with one cached and one not-built unit groups
only the not-built one. -/
theorem c5_matrix_entries_only_notBuilt_witness :
    GroupsFrom
      [⟨"packages.x86_64-linux.a", [], "cached", "/nix/store/a.drv", "a",
          "x86_64-linux", [], [], [], none⟩,
       ⟨"packages.x86_64-linux.b", [], "notBuilt", "/nix/store/b.drv", "b",
          "x86_64-linux", [], [], [], none⟩]
      "packages."
      [("x86_64-linux",
        [⟨"packages.x86_64-linux.b", "b", "x86_64-linux",
          ⟨["blacksmith-8vcpu-ubuntu-2404"]⟩, none⟩])]
    ∧ GroupsFrom
      [⟨"packages.x86_64-linux.a", [], "cached", "/nix/store/a.drv", "a",
          "x86_64-linux", [], [], [], none⟩,
       ⟨"packages.x86_64-linux.b", [], "notBuilt", "/nix/store/b.drv", "b",
          "x86_64-linux", [], [], [], none⟩]
      "checks." [] :=
  c5_matrix_entries_only_notBuilt _
    ([("x86_64-linux",
      [⟨"packages.x86_64-linux.b", "b", "x86_64-linux",
        ⟨["blacksmith-8vcpu-ubuntu-2404"]⟩, none⟩])], []) rfl

/-! ## splitOn and prefix routing -/

theorem splitOn_nil_char (c : Char) : ([] : List Char).splitOn c = [[]] := by
  simp [List.splitOn, List.splitOnP_nil]

theorem splitOn_cons_char (c a : Char) (t : List Char) :
    (a :: t).splitOn c =
      if a = c then [] :: t.splitOn c
      else (t.splitOn c).modifyHead (List.cons a) := by
  simp [List.splitOn, List.splitOnP_cons]

theorem splitOn_ne_nil_char (c : Char) (l : List Char) : l.splitOn c ≠ [] :=
  List.splitOnP_ne_nil _ l

theorem headD_modifyHead_cons (a : Char) (s : List (List Char)) (hs : s ≠ []) :
    (s.modifyHead (List.cons a)).headD [] = a :: s.headD [] := by
  cases s with
  | nil => cases hs rfl
  | cons x xs => rfl

/-- The Python prefix test `attr.startswith(seg + ".")` coincides with the
first `.`-separated segment equalling `seg` as soon as there are at least
two segments. -/
theorem isPrefixOf_dot_iff :
    ∀ (l pre : List Char), '.' ∉ pre → 2 ≤ (l.splitOn '.').length →
      ((pre ++ ['.']).isPrefixOf l = true ↔ (l.splitOn '.').headD [] = pre) := by
  intro l
  induction l with
  | nil =>
    intro pre _ h2
    rw [splitOn_nil_char] at h2
    simp at h2
  | cons a t iht =>
    intro pre hdot h2
    rw [splitOn_cons_char] at h2 ⊢
    by_cases ha : a = '.'
    · rw [if_pos ha] at h2 ⊢
      cases pre with
      | nil =>
        subst ha
        simp [List.isPrefixOf]
      | cons p pr =>
        have hpd : p ≠ '.' := fun hh => hdot (hh ▸ List.mem_cons_self p pr)
        subst ha
        constructor
        · intro hpre
          exfalso
          simp only [List.cons_append, List.isPrefixOf, Bool.and_eq_true, beq_iff_eq] at hpre
          exact hpd hpre.1
        · intro hh
          simp at hh
    · rw [if_neg ha] at h2 ⊢
      have h2' : 2 ≤ (t.splitOn '.').length := by
        rwa [List.length_modifyHead] at h2
      rw [headD_modifyHead_cons a _ (splitOn_ne_nil_char '.' t)]
      cases pre with
      | nil =>
        simp only [List.nil_append, List.isPrefixOf, Bool.and_eq_true, beq_iff_eq]
        constructor
        · intro hh
          exact absurd hh.1.symm ha
        · intro hh
          cases hh
      | cons p pr =>
        have hdot' : '.' ∉ pr := fun hh => hdot (List.mem_cons_of_mem p hh)
        simp only [List.cons_append, List.isPrefixOf, Bool.and_eq_true, beq_iff_eq,
          List.append_eq]
        rw [iht pr hdot' h2']
        constructor
        · rintro ⟨rfl, hh⟩
          rw [hh]
        · intro hh
          injection hh with hh1 hh2
          exact ⟨hh1.symm, hh2⟩

theorem headD_map_mk (s : List (List Char)) (hs : s ≠ []) :
    (s.map (fun l => (⟨l⟩ : String))).headD "" = ⟨s.headD []⟩ := by
  cases s with
  | nil => cases hs rfl
  | cons x xs => rfl

/-- String-level version of `isPrefixOf_dot_iff` for `pySplit`. -/
theorem pyStartsWith_dot_iff (s pre : String) (hdot : '.' ∉ pre.data)
    (h2 : 2 ≤ (pySplit s '.').length) :
    pyStartsWith s (pre ++ ".") = true ↔ (pySplit s '.').headD "" = pre := by
  have h2' : 2 ≤ (s.data.splitOn '.').length := by
    unfold pySplit at h2
    rwa [List.length_map] at h2
  unfold pyStartsWith pySplit
  rw [String.data_append]
  have hd : (("." : String)).data = ['.'] := rfl
  rw [hd, isPrefixOf_dot_iff s.data pre.data hdot h2']
  rw [headD_map_mk _ (splitOn_ne_nil_char '.' s.data)]
  constructor
  · intro hh
    rw [hh]
  · intro hh
    have : (⟨(s.data.splitOn '.').headD []⟩ : String).data = pre.data := by rw [hh]
    exact this

theorem clean_ok_two_segments {pkg : NixEvalJobsOutput} {c : GitHubActionPackage}
    (h : clean_package_for_output pkg = .ok c) :
    2 ≤ (pySplit pkg.attr '.').length := by
  unfold clean_package_for_output at h
  cases hr : get_runner_for_package pkg with
  | none => rw [hr] at h; cases h
  | some r =>
    rw [hr] at h
    cases hie : is_extension_pkg pkg with
    | error e => rw [hie] at h; cases h
    | ok b =>
      unfold is_extension_pkg at hie
      by_cases hlen : (pySplit pkg.attr '.').length < 2
      · rw [if_pos hlen] at hie; cases hie
      · omega

/-! ## Claim C7: routing by the first attribute segment -/

/-- C7: a not-yet-built unit that survives classification has at least two
`.`-segments in its `attr`; the `checks.`/`packages.` prefix tests coincide
with its first segment being `checks`/`packages`; first segment `checks`
routes it into the checks group, `packages` into the packages group, and
anything else drops it, so each unit lands in at most one group. -/
theorem c7_routing_first_segment (st : Groups × Groups)
    (pkg : NixEvalJobsOutput) (c : GitHubActionPackage)
    (h1 : pkg.cacheStatus = "notBuilt")
    (h2 : clean_package_for_output pkg = .ok c) :
    2 ≤ (pySplit pkg.attr '.').length
    ∧ (pyStartsWith pkg.attr "checks." = true ↔
        (pySplit pkg.attr '.').headD "" = "checks")
    ∧ (pyStartsWith pkg.attr "packages." = true ↔
        (pySplit pkg.attr '.').headD "" = "packages")
    ∧ ((pySplit pkg.attr '.').headD "" = "checks" →
        processPkg st pkg = .ok (st.1, addToGroup st.2 pkg.system c))
    ∧ ((pySplit pkg.attr '.').headD "" = "packages" →
        processPkg st pkg = .ok (addToGroup st.1 pkg.system c, st.2))
    ∧ ((pySplit pkg.attr '.').headD "" ≠ "checks" →
        (pySplit pkg.attr '.').headD "" ≠ "packages" →
        processPkg st pkg = .ok st) := by
  have hseg := clean_ok_two_segments h2
  have hchiff : pyStartsWith pkg.attr "checks." = true ↔
      (pySplit pkg.attr '.').headD "" = "checks" := by
    have := pyStartsWith_dot_iff pkg.attr "checks" (by decide) hseg
    simpa using this
  have hpkiff : pyStartsWith pkg.attr "packages." = true ↔
      (pySplit pkg.attr '.').headD "" = "packages" := by
    have := pyStartsWith_dot_iff pkg.attr "packages" (by decide) hseg
    simpa using this
  refine ⟨hseg, hchiff, hpkiff, ?_, ?_, ?_⟩
  · intro hd
    have hch := hchiff.2 hd
    simp [processPkg, h1, h2, hch]
  · intro hd
    have hpk := hpkiff.2 hd
    have hch : pyStartsWith pkg.attr "checks." = false := by
      cases hx : pyStartsWith pkg.attr "checks."
      · rfl
      · exfalso
        have hcheq := hchiff.1 hx
        have : ("checks" : String) = "packages" := by rw [← hcheq, hd]
        exact absurd this (by decide)
    simp [processPkg, h1, h2, hch, hpk]
  · intro hd1 hd2
    have hch : pyStartsWith pkg.attr "checks." = false := by
      cases hx : pyStartsWith pkg.attr "checks."
      · rfl
      · exact absurd (hchiff.1 hx) hd1
    have hpk : pyStartsWith pkg.attr "packages." = false := by
      cases hx : pyStartsWith pkg.attr "packages."
      · rfl
      · exact absurd (hpkiff.1 hx) hd2
    simp [processPkg, h1, h2, hch, hpk]

/-- Witness for C7: an `apps.`-rooted unit is classified but silently
dropped from both groups. -/
theorem c7_routing_first_segment_witness :
    processPkg (([], []) : Groups × Groups)
      ⟨"apps.x86_64-linux.cli", [], "notBuilt", "/nix/store/c.drv", "cli",
        "x86_64-linux", [], [], [], none⟩ = .ok ([], []) :=
  (c7_routing_first_segment ([], [])
    ⟨"apps.x86_64-linux.cli", [], "notBuilt", "/nix/store/c.drv", "cli",
      "x86_64-linux", [], [], [], none⟩
    ⟨"apps.x86_64-linux.cli", "cli", "x86_64-linux",
      ⟨["blacksmith-8vcpu-ubuntu-2404"]⟩, none⟩
    rfl rfl).2.2.2.2.2 (by decide) (by decide)

/-! ## Claim C9: classification precedes routing and its exceptions abort -/

/-- C9: for a not-yet-built unit, classification runs before the
packages/checks routing decision: a missing runner-table entry raises
`ValueError` and an `attr` with fewer than two `.`-segments raises
`IndexError` inside `is_extension_pkg`, in both cases without any
hypothesis on the `attr` prefix; any such exception in the grouping loop
aborts the whole run. -/
theorem c9_classification_before_routing :
    (∀ (st : Groups × Groups) (pkg : NixEvalJobsOutput),
      pkg.cacheStatus = "notBuilt" → get_runner_for_package pkg = none →
      processPkg st pkg = .error .valueError)
    ∧ (∀ (st : Groups × Groups) (pkg : NixEvalJobsOutput) (r : RunsOnConfig),
      pkg.cacheStatus = "notBuilt" → get_runner_for_package pkg = some r →
      (pySplit pkg.attr '.').length < 2 →
      is_extension_pkg pkg = .error .indexError ∧
      processPkg st pkg = .error .indexError)
    ∧ (∀ (pre post : List NixEvalJobsOutput) (pkg : NixEvalJobsOutput)
        (st st' : Groups × Groups) (e : PyExn),
      pre.foldlM processPkg st = .ok st' → processPkg st' pkg = .error e →
      (pre ++ pkg :: post).foldlM processPkg st = .error e)
    ∧ (∀ (L : List EvalLine) (E : List String)
        (sorted : List NixEvalJobsOutput) (e : PyExn),
      sort_pkgs_by_closures (parseStdout L).1 = .ok sorted →
      sorted.foldlM processPkg (([], []) : Groups × Groups) = .error e →
      mainRun L E = .error e) := by
  refine ⟨?_, ?_, ?_, ?_⟩
  · intro st pkg hcs hr
    simp [processPkg, clean_package_for_output, hcs, hr]
  · intro st pkg r hcs hr hlen
    have hie : is_extension_pkg pkg = .error .indexError := by
      simp [is_extension_pkg, hlen]
    refine ⟨hie, ?_⟩
    simp [processPkg, clean_package_for_output, hcs, hr, hie]
  · intro pre
    induction pre with
    | nil =>
      intro post pkg st st' e h hperr
      simp only [List.foldlM_nil] at h
      injection h with h
      subst h
      rw [List.nil_append, List.foldlM_cons, hperr]
      rfl
    | cons q t ihq =>
      intro post pkg st st' e h hperr
      rw [List.foldlM_cons] at h
      cases hq : processPkg st q with
      | error e' =>
        rw [hq] at h
        simp [Bind.bind, Except.bind] at h
      | ok s₁ =>
        rw [hq] at h
        simp only [Bind.bind, Except.bind] at h
        rw [List.cons_append, List.foldlM_cons, hq]
        show (t ++ pkg :: post).foldlM processPkg s₁ = .error e
        exact ihq post pkg s₁ st' e h hperr
  · intro L E sorted e hs hf
    simp [mainRun, hs, hf]

/-- Witness for C9: an unknown platform raises `ValueError`, a one-segment
`attr` raises `IndexError`, both on units a prefix test would have
dropped; the `ValueError` aborts a full run. -/
theorem c9_classification_before_routing_witness :
    processPkg (([], []) : Groups × Groups)
      ⟨"somepkg.foo", [], "notBuilt", "/nix/store/r.drv", "r",
        "riscv64-linux", [], [], [], none⟩ = .error .valueError
    ∧ is_extension_pkg
      ⟨"standalone", [], "notBuilt", "/nix/store/s.drv", "s",
        "x86_64-linux", [], [], [], none⟩ = .error .indexError
    ∧ processPkg (([], []) : Groups × Groups)
      ⟨"standalone", [], "notBuilt", "/nix/store/s.drv", "s",
        "x86_64-linux", [], [], [], none⟩ = .error .indexError
    ∧ mainRun
      [.record ⟨"somepkg.foo", [], "notBuilt", "/nix/store/r.drv", "r",
        "riscv64-linux", [], [], [], none⟩] [] = .error .valueError := by
  have h1 := c9_classification_before_routing.1 ([], [])
    ⟨"somepkg.foo", [], "notBuilt", "/nix/store/r.drv", "r",
      "riscv64-linux", [], [], [], none⟩ rfl rfl
  have h2 := c9_classification_before_routing.2.1 ([], [])
    ⟨"standalone", [], "notBuilt", "/nix/store/s.drv", "s",
      "x86_64-linux", [], [], [], none⟩
    ⟨["blacksmith-8vcpu-ubuntu-2404"]⟩ rfl rfl (by decide)
  have h4 := c9_classification_before_routing.2.2.2
    [.record ⟨"somepkg.foo", [], "notBuilt", "/nix/store/r.drv", "r",
      "riscv64-linux", [], [], [], none⟩] []
    [⟨"somepkg.foo", [], "notBuilt", "/nix/store/r.drv", "r",
      "riscv64-linux", [], [], [], none⟩] .valueError rfl
    (by
      rw [List.foldlM_cons, h1]
      rfl)
  exact ⟨h1, h2.1, h2.2, h4⟩

/-! ## Matrix assembly lemmas -/

theorem lookupKey_eq_none {m : Groups} {k : String} :
    lookupKey m k = none ↔ ∀ p ∈ m, p.1 ≠ k := by
  unfold lookupKey
  cases hf : m.find? (fun p => p.1 == k) with
  | none =>
    constructor
    · intro _ p hp he
      have := List.find?_eq_none.1 hf p hp
      simp [he] at this
    · intro _; rfl
  | some q =>
    constructor
    · intro h; cases h
    · intro h
      exfalso
      have hq := List.mem_of_find?_eq_some hf
      have hqe : q.1 = k := by simpa using List.find?_some hf
      exact h q hq hqe

theorem lookupKey_some_dest {m : Groups} {k : String}
    {l : List GitHubActionPackage} (h : lookupKey m k = some l) :
    ∃ p ∈ m, p.1 = k ∧ p.2 = l := by
  unfold lookupKey at h
  cases hf : m.find? (fun p => p.1 == k) with
  | none => rw [hf] at h; cases h
  | some q =>
    rw [hf] at h
    injection h with h
    exact ⟨q, List.mem_of_find?_eq_some hf, by simpa using List.find?_some hf, h⟩

theorem lookupKey_setKey_self (m : Groups) (k : String)
    (v : List GitHubActionPackage) : lookupKey (setKey m k v) k = some v := by
  unfold setKey
  by_cases hany : m.any (fun p => p.1 == k) = true
  · rw [if_pos hany]
    unfold lookupKey
    rw [List.find?_map _ _]
    have hfe : ((fun q : String × List GitHubActionPackage => q.1 == k) ∘
        (fun p => if p.1 == k then (p.1, v) else p)) =
        (fun p : String × List GitHubActionPackage => p.1 == k) := by
      funext p
      by_cases hp : p.1 = k <;> simp [Function.comp, hp]
    rw [hfe]
    obtain ⟨p₀, hp₀, hp₀e⟩ := any_key_iff.1 hany
    cases hf : m.find? (fun p => p.1 == k) with
    | none =>
      exfalso
      have := List.find?_eq_none.1 hf p₀ hp₀
      simp [hp₀e] at this
    | some q =>
      have hqe : q.1 = k := by simpa using List.find?_some hf
      simp [hqe]
  · rw [if_neg hany]
    unfold lookupKey
    rw [List.find?_append]
    have hf : m.find? (fun p => p.1 == k) = none := by
      rw [List.find?_eq_none]
      intro p hp hbe
      exact hany (List.any_eq_true.2 ⟨p, hp, hbe⟩)
    rw [hf]
    simp

theorem lookupKey_setKey_other (m : Groups) (k k' : String)
    (v : List GitHubActionPackage) (h : k' ≠ k) :
    lookupKey (setKey m k v) k' = lookupKey m k' := by
  unfold setKey
  by_cases hany : m.any (fun p => p.1 == k) = true
  · rw [if_pos hany]
    unfold lookupKey
    rw [List.find?_map _ _]
    have hfe : ((fun q : String × List GitHubActionPackage => q.1 == k') ∘
        (fun p => if p.1 == k then (p.1, v) else p)) =
        (fun p : String × List GitHubActionPackage => p.1 == k') := by
      funext p
      by_cases hp : p.1 = k <;> simp [Function.comp, hp]
    rw [hfe]
    cases hf : m.find? (fun p => p.1 == k') with
    | none => rfl
    | some q =>
      have hqe : q.1 = k' := by simpa using List.find?_some hf
      simp [hqe, h]
  · rw [if_neg hany]
    unfold lookupKey
    rw [List.find?_append]
    cases hf : m.find? (fun p => p.1 == k') with
    | some q => simp
    | none =>
      have hk : (k == k') = false := by
        simp only [beq_eq_false_iff_ne, ne_eq]
        exact fun he => h he.symm
      simp only [Option.none_or]
      rw [List.find?_cons_of_neg _ (by simp [hk])]
      rfl

theorem mem_setKey {m : Groups} {k : String} {v : List GitHubActionPackage}
    {p : String × List GitHubActionPackage} (hp : p ∈ setKey m k v) :
    p ∈ m ∨ (p.1 = k ∧ p.2 = v) := by
  unfold setKey at hp
  split at hp
  · obtain ⟨q, hq, hqe⟩ := List.mem_map.1 hp
    by_cases hqk : q.1 = k
    · rw [if_pos (by simpa using hqk)] at hqe
      right
      rw [← hqe]
      exact ⟨hqk, rfl⟩
    · rw [if_neg (by simpa using hqk)] at hqe
      left
      rw [← hqe]
      exact hq
  · rcases List.mem_append.1 hp with h | h
    · exact Or.inl h
    · rw [List.mem_singleton] at h
      subst h
      exact Or.inr ⟨rfl, rfl⟩

theorem mem_foldl_setKey_underscore :
    ∀ (g m : Groups) (p : String × List GitHubActionPackage),
      p ∈ g.foldl (fun m q => setKey m (pyUnderscore q.1) q.2) m →
      p ∈ m ∨ ∃ q ∈ g, p.1 = pyUnderscore q.1 ∧ p.2 = q.2 := by
  intro g
  induction g with
  | nil => intro m p hp; exact Or.inl (by simpa using hp)
  | cons q0 t iht =>
    intro m p hp
    simp only [List.foldl_cons] at hp
    rcases iht _ p hp with hm | ⟨q, hq, he⟩
    · rcases mem_setKey hm with hm' | ⟨h1, h2⟩
      · exact Or.inl hm'
      · exact Or.inr ⟨q0, by simp, h1, h2⟩
    · exact Or.inr ⟨q, List.mem_cons_of_mem _ hq, he⟩

theorem mem_underscoreGroups {g : Groups} {p : String × List GitHubActionPackage}
    (hp : p ∈ underscoreGroups g) :
    ∃ q ∈ g, p.1 = pyUnderscore q.1 ∧ p.2 = q.2 := by
  unfold underscoreGroups at hp
  rcases mem_foldl_setKey_underscore g [] p hp with hm | h
  · cases hm
  · exact h

theorem lookup_fill_preserved (nm : String) :
    ∀ (sys : List String) (m : Groups) (k : String)
      (l : List GitHubActionPackage),
      lookupKey m k = some l →
      lookupKey (sys.foldl (fun m sys =>
        if m.any (fun p => p.1 == pyUnderscore sys) then m
        else setKey m (pyUnderscore sys) [placeholderPkg nm sys]) m) k = some l := by
  intro sys
  induction sys with
  | nil => intro m k l h; simpa using h
  | cons sy t iht =>
    intro m k l h
    simp only [List.foldl_cons]
    apply iht
    by_cases hany : m.any (fun p => p.1 == pyUnderscore sy) = true
    · rw [if_pos hany]; exact h
    · rw [if_neg hany]
      have hnone : lookupKey m (pyUnderscore sy) = none := by
        rw [lookupKey_eq_none]
        intro p hp he
        exact hany (any_key_iff.2 ⟨p, hp, he⟩)
      have hk : k ≠ pyUnderscore sy := by
        intro he
        rw [he, hnone] at h
        cases h
      rw [lookupKey_setKey_other _ _ _ _ hk]
      exact h

theorem lookup_fill_fold (nm : String) :
    ∀ (sys : List String) (m : Groups) (s : String),
      s ∈ sys → (sys.map pyUnderscore).Nodup →
      ∃ l, lookupKey (sys.foldl (fun m sys =>
          if m.any (fun p => p.1 == pyUnderscore sys) then m
          else setKey m (pyUnderscore sys) [placeholderPkg nm sys]) m)
        (pyUnderscore s) = some l ∧
        (lookupKey m (pyUnderscore s) = some l ∨
          (lookupKey m (pyUnderscore s) = none ∧ l = [placeholderPkg nm s])) := by
  intro sys
  induction sys with
  | nil => intro m s hs; cases hs
  | cons sy t iht =>
    intro m s hs hnd
    simp only [List.map_cons, List.nodup_cons] at hnd
    simp only [List.foldl_cons]
    rcases List.mem_cons.1 hs with rfl | hs'
    · by_cases hany : m.any (fun p => p.1 == pyUnderscore s) = true
      · rw [if_pos hany]
        cases hl : lookupKey m (pyUnderscore s) with
        | none =>
          exfalso
          obtain ⟨p, hp, hpe⟩ := any_key_iff.1 hany
          exact (lookupKey_eq_none.1 hl) p hp hpe
        | some l =>
          exact ⟨l, lookup_fill_preserved nm t m (pyUnderscore s) l hl, Or.inl rfl⟩
      · rw [if_neg hany]
        have hnone : lookupKey m (pyUnderscore s) = none := by
          rw [lookupKey_eq_none]
          intro p hp he
          exact hany (any_key_iff.2 ⟨p, hp, he⟩)
        refine ⟨[placeholderPkg nm s], ?_, Or.inr ⟨hnone, rfl⟩⟩
        apply lookup_fill_preserved
        exact lookupKey_setKey_self m _ _
    · have hne : pyUnderscore s ≠ pyUnderscore sy := by
        intro he
        exact hnd.1 (he ▸ List.mem_map_of_mem pyUnderscore hs')
      have hstep : lookupKey (if m.any (fun p => p.1 == pyUnderscore sy) then m
          else setKey m (pyUnderscore sy) [placeholderPkg nm sy])
          (pyUnderscore s) = lookupKey m (pyUnderscore s) := by
        by_cases hany : m.any (fun p => p.1 == pyUnderscore sy) = true
        · rw [if_pos hany]
        · rw [if_neg hany]
          exact lookupKey_setKey_other _ _ _ _ hne
      obtain ⟨l, h1, h2⟩ := iht _ s hs' hnd.2
      rw [hstep] at h2
      exact ⟨l, h1, h2⟩

theorem runner_some_system {pkg : NixEvalJobsOutput} {r : RunsOnConfig}
    (h : get_runner_for_package pkg = some r) :
    pkg.system ∈ supportedSystems := by
  unfold get_runner_for_package at h
  cases hf : BUILD_RUNNER_MAP.find? (fun p => p.1 == pkg.system) with
  | none => rw [hf] at h; cases h
  | some p =>
    have hp : p ∈ BUILD_RUNNER_MAP := List.mem_of_find?_eq_some hf
    have hpe : p.1 = pkg.system := by simpa using List.find?_some hf
    rw [← hpe]
    have hm : p.1 ∈ BUILD_RUNNER_MAP.map Prod.fst := List.mem_map_of_mem Prod.fst hp
    simpa [BUILD_RUNNER_MAP, supportedSystems] using hm

theorem clean_ok_system {pkg : NixEvalJobsOutput} {c : GitHubActionPackage}
    (h : clean_package_for_output pkg = .ok c) :
    pkg.system ∈ supportedSystems := by
  unfold clean_package_for_output at h
  cases hr : get_runner_for_package pkg with
  | none => rw [hr] at h; cases h
  | some r => exact runner_some_system hr

/-- Lookup in an assembled matrix: every supported platform has a nonempty
entry; a platform with no group receives exactly the placeholder. -/
theorem lookup_assembleMatrix (nm : String) (g : Groups) (s : String)
    (hs : s ∈ supportedSystems)
    (hkeys : ∀ q ∈ g, q.1 ∈ supportedSystems)
    (hne : ∀ q ∈ g, q.2 ≠ []) :
    ∃ l, lookupKey (assembleMatrix nm g) (pyUnderscore s) = some l ∧ l ≠ [] ∧
      ((∀ q ∈ g, q.1 ≠ s) → l = [placeholderPkg nm s]) := by
  have hnd : (supportedSystems.map pyUnderscore).Nodup := by decide
  obtain ⟨l, h1, h2⟩ :=
    lookup_fill_fold nm supportedSystems (underscoreGroups g) s hs hnd
  refine ⟨l, h1, ?_, ?_⟩
  · rcases h2 with hsome | ⟨_, rfl⟩
    · obtain ⟨p, hp, _, hpv⟩ := lookupKey_some_dest hsome
      obtain ⟨q, hq, _, hq2⟩ := mem_underscoreGroups hp
      rw [← hpv, hq2]
      exact hne q hq
    · simp
  · intro hnos
    rcases h2 with hsome | ⟨_, rfl⟩
    · exfalso
      obtain ⟨p, hp, hpe, _⟩ := lookupKey_some_dest hsome
      obtain ⟨q, hq, hq1, _⟩ := mem_underscoreGroups hp
      have hinj : ∀ a ∈ supportedSystems, ∀ b ∈ supportedSystems,
          pyUnderscore a = pyUnderscore b → a = b := by decide
      have : q.1 = s := hinj q.1 (hkeys q hq) s hs (by rw [← hq1, hpe])
      exact hnos q hq this
    · rfl

/-! ## Claim C6: every supported platform appears in both matrices -/

/-- C6: in every run that emits the matrices, each supported platform
appears (hyphens replaced by underscores) as a key of both the packages
and the checks matrix with a nonempty list; a platform for which no parsed
not-yet-built unit was routed into a group receives exactly one placeholder
entry with empty `attr` and the default runner. -/
theorem c6_every_platform_present (L : List EvalLine) (E : List String)
    (out : RunOutcome) (pm cm : Groups)
    (h : mainRun L E = .ok out)
    (hpm : ("packages_matrix", pm) ∈ out.outputs)
    (hcm : ("checks_matrix", cm) ∈ out.outputs)
    (s : String) (hs : s ∈ supportedSystems) :
    ∃ lp lc,
      lookupKey pm (pyUnderscore s) = some lp ∧ lp ≠ [] ∧
      lookupKey cm (pyUnderscore s) = some lc ∧ lc ≠ [] ∧
      ((∀ pkg ∈ (parseStdout L).1, ¬(pkg.cacheStatus = "notBuilt" ∧
          pkg.system = s ∧ pyStartsWith pkg.attr "packages." = true)) →
        lp = [placeholderPkg "no packages to build" s]) ∧
      ((∀ pkg ∈ (parseStdout L).1, ¬(pkg.cacheStatus = "notBuilt" ∧
          pkg.system = s ∧ pyStartsWith pkg.attr "checks." = true)) →
        lc = [placeholderPkg "no checks to build" s]) := by
  obtain ⟨sorted, groups, hsort, hfold, hout⟩ := mainRun_ok_dest L E out h
  subst hout
  by_cases hemp : (parseStdout L).2.isEmpty = true
  · simp only [hemp, if_true] at hpm hcm
    have hpm' : pm = assembleMatrix "no packages to build" groups.1 := by
      rcases List.mem_cons.1 hpm with h' | h'
      · exact congrArg Prod.snd h'
      · rw [List.mem_singleton] at h'
        have hne : ("packages_matrix" : String) ≠ "checks_matrix" := by decide
        exact absurd (congrArg Prod.fst h') hne
    have hcm' : cm = assembleMatrix "no checks to build" groups.2 := by
      rcases List.mem_cons.1 hcm with h' | h'
      · have hne : ("checks_matrix" : String) ≠ "packages_matrix" := by decide
        exact absurd (congrArg Prod.fst h') hne
      · rw [List.mem_singleton] at h'
        exact congrArg Prod.snd h'
    subst hpm'
    subst hcm'
    have hsub : ∀ x ∈ sorted, x ∈ (parseStdout L).1 :=
      (sort_ok_inv _ (parseStdout_nodup L) sorted hsort).2
    obtain ⟨hinvP, hinvC⟩ := foldlM_processPkg_inv sorted ([], []) groups
      (parseStdout L).1 hfold hsub (fun q hq => by cases hq) (fun q hq => by cases hq)
    have hkeysP : ∀ q ∈ groups.1, q.1 ∈ supportedSystems := by
      intro q hq
      obtain ⟨hq1, hq2⟩ := hinvP q hq
      obtain ⟨e, he⟩ := List.exists_mem_of_ne_nil _ hq1
      obtain ⟨pkg, _, _, hsys, _, hclean⟩ := hq2 e he
      rw [← hsys]
      exact clean_ok_system hclean
    have hkeysC : ∀ q ∈ groups.2, q.1 ∈ supportedSystems := by
      intro q hq
      obtain ⟨hq1, hq2⟩ := hinvC q hq
      obtain ⟨e, he⟩ := List.exists_mem_of_ne_nil _ hq1
      obtain ⟨pkg, _, _, hsys, _, hclean⟩ := hq2 e he
      rw [← hsys]
      exact clean_ok_system hclean
    obtain ⟨lp, hlp1, hlp2, hlp3⟩ := lookup_assembleMatrix "no packages to build"
      groups.1 s hs hkeysP (fun q hq => (hinvP q hq).1)
    obtain ⟨lc, hlc1, hlc2, hlc3⟩ := lookup_assembleMatrix "no checks to build"
      groups.2 s hs hkeysC (fun q hq => (hinvC q hq).1)
    refine ⟨lp, lc, hlp1, hlp2, hlc1, hlc2, ?_, ?_⟩
    · intro hnone
      apply hlp3
      intro q hq he
      obtain ⟨hq1, hq2⟩ := hinvP q hq
      obtain ⟨e, hee⟩ := List.exists_mem_of_ne_nil _ hq1
      obtain ⟨pkg, hpkg, hcs, hsys, hpre, _⟩ := hq2 e hee
      exact hnone pkg hpkg ⟨hcs, by rw [hsys, he], hpre⟩
    · intro hnone
      apply hlc3
      intro q hq he
      obtain ⟨hq1, hq2⟩ := hinvC q hq
      obtain ⟨e, hee⟩ := List.exists_mem_of_ne_nil _ hq1
      obtain ⟨pkg, hpkg, hcs, hsys, hpre, _⟩ := hq2 e hee
      exact hnone pkg hpkg ⟨hcs, by rw [hsys, he], hpre⟩
  · exfalso
    have hempF : (parseStdout L).2.isEmpty = false := by
      cases hx : (parseStdout L).2.isEmpty
      · rfl
      · exact absurd hx hemp
    simp only [hempF, Bool.false_eq_true, if_false] at hpm
    cases hpm

/-- Witness for C6: an empty run yields matrices whose aarch64-darwin keys
hold exactly the placeholders. -/
theorem c6_every_platform_present_witness :
    ∃ lp lc,
      lookupKey (assembleMatrix "no packages to build" []) (pyUnderscore "aarch64-darwin") =
        some lp ∧ lp ≠ [] ∧
      lookupKey (assembleMatrix "no checks to build" []) (pyUnderscore "aarch64-darwin") =
        some lc ∧ lc ≠ [] ∧
      ((∀ pkg ∈ (parseStdout []).1, ¬(pkg.cacheStatus = "notBuilt" ∧
          pkg.system = "aarch64-darwin" ∧ pyStartsWith pkg.attr "packages." = true)) →
        lp = [placeholderPkg "no packages to build" "aarch64-darwin"]) ∧
      ((∀ pkg ∈ (parseStdout []).1, ¬(pkg.cacheStatus = "notBuilt" ∧
          pkg.system = "aarch64-darwin" ∧ pyStartsWith pkg.attr "checks." = true)) →
        lc = [placeholderPkg "no checks to build" "aarch64-darwin"]) :=
  c6_every_platform_present [] []
    ⟨[], [], true,
      [("packages_matrix", assembleMatrix "no packages to build" []),
       ("checks_matrix", assembleMatrix "no checks to build" [])], 0⟩
    (assembleMatrix "no packages to build" [])
    (assembleMatrix "no checks to build" [])
    rfl (by simp) (by simp) "aarch64-darwin" (by decide)

end GhMatrix
